import Mathlib

/-!
Shallow embedding of the core of the Excel table / formula extraction tool
(source: table_extraction.py) together with theorems settling the frozen
claims about its specification.

Modelling conventions:
* Cell values are modelled as `Option String` (a `None` Python value is
  `none`; any other value is represented by its string rendering, since the
  code only ever tests values for `None`-ness or converts them with
  `str(...).strip()`).
* The worksheet abstraction supplied by openpyxl (raw cell values, hidden
  row/column flags, merged ranges, declared tables) is a structure of total
  functions and lists.
* numpy boolean grids become total functions `Nat -> Nat -> Bool` (false
  outside the used extent, matching a zero-initialised array).
* Python lists used as LIFO stacks are Lean lists whose head is the top.
* Loops whose termination is by a decreasing measure rather than structural
  are written with an explicit fuel argument that provably dominates the
  measure, so every definition stays executable by the kernel; the fuel
  accounting is explained where it is introduced.
-/

/-- An inclusive rectangular range of 1-based cell coordinates.
Source ranges appear as tuples `(min_row, min_col, max_row, max_col)`
(from `range_boundaries`) or `(r1, r2, c1, c2)` (bounding boxes); both are
modelled by this record with named fields. -/
structure Region where
  r1 : Nat
  c1 : Nat
  r2 : Nat
  c2 : Nat
deriving DecidableEq, Repr

/-- A declared (explicit) worksheet table: `t.ref` (its range), its
`displayName`, and the declared `tableColumns` names (`getattr(col, "name", "")`
gives a string, possibly empty). -/
structure TableObj where
  ref : Region
  displayName : String
  tableColumns : List String

/-- The worksheet abstraction the code reads through openpyxl:
`val i j` is the raw value of the 0-based cell `(i, j)` as yielded by
`ws.iter_rows(values_only=True)` (so a merged cell that is not the anchor
reads `none`); `hiddenRow` / `hiddenCol` are the 1-based hidden flags of
`row_dimensions` / `column_dimensions`; `merged` is `ws.merged_cells.ranges`;
`tables` is `ws._tables.values()`. -/
structure Worksheet where
  maxRow : Nat
  maxCol : Nat
  val : Nat → Nat → Option String
  hiddenRow : Nat → Bool
  hiddenCol : Nat → Bool
  merged : List Region
  tables : List TableObj

/-- The boolean occupancy grid (`np.ndarray` of `bool`), total with `false`
outside the used extent. -/
def Grid : Type := Nat → Nat → Bool

/-- Python `s.strip()` on the strings encountered here (whitespace strip). -/
def pyStrip (s : String) : String :=
  String.mk (((s.data.dropWhile Char.isWhitespace).reverse.dropWhile Char.isWhitespace).reverse)

/-- `"" if v is None else str(v).strip()`. -/
def cellStr (v : Option String) : String :=
  match v with
  | none => ""
  | some s => pyStrip s

/-- `any(ch.isalpha() for ch in s)` (source helper `looks_text`). -/
def looks_text (s : String) : Bool := s.data.any Char.isAlpha

/-- `s.startswith(pre)`, on the character lists to stay kernel-friendly. -/
def startsWithBr (s pre : String) : Bool := pre.data.isPrefixOf s.data

/-- `get_explicit_table_regions`: each declared table contributes
`(min_row, min_col, max_row, max_col, displayName, t)`; here the range is the
`Region` plus the name and the table object. -/
def get_explicit_table_regions (ws : Worksheet) : List (Region × String × TableObj) :=
  ws.tables.map (fun t => (t.ref, t.displayName, t))

/-- The explicit-table mask of `build_grid_excluding_explicit`:
`explicit_mask[r1 - 1:r2, c1 - 1:c2] = True` for each region, i.e. the
0-based cell `(i, j)` is masked iff `r1 - 1 <= i < r2` and `c1 - 1 <= j < c2`
for some region (numpy slice semantics; `Nat` subtraction agrees with the
source because region coordinates are never negative). -/
def explicit_mask (regs : List Region) (i j : Nat) : Bool :=
  regs.any (fun g => decide (g.r1 - 1 ≤ i) && decide (i < g.r2) &&
    decide (g.c1 - 1 ≤ j) && decide (j < g.c2))

/-- `build_grid_excluding_explicit`: the grid has shape `(R, C)` with
`R = len(list(ws.iter_rows())) = ws.maxRow` and `C = ws.max_column`; the cell
`(i, j)` is set iff its column (1-based `j+1`) is not hidden, its raw value is
not `None`, and it is not masked by an explicit table.  Note the source
consults only `column_dimensions` (never `row_dimensions`) and reads raw,
merge-unresolved values. -/
def build_grid_excluding_explicit (ws : Worksheet) (regs : List Region) : Grid :=
  fun i j =>
    decide (i < ws.maxRow) && decide (j < ws.maxCol) &&
    !ws.hiddenCol (j + 1) &&
    (ws.val i j).isSome &&
    !explicit_mask regs i j

/-- `get_merged_cell_value`: scan the merged ranges; if `(row, col)` (1-based)
is covered, read the anchor (top-left) cell, else the cell itself.
`ws.merged_cells.ranges` is an unordered collection, but merged ranges never
overlap, so modelling the scan by `find?` over the list is faithful. -/
def get_merged_cell_value (ws : Worksheet) (row col : Nat) : Option String :=
  match ws.merged.find? (fun g =>
      decide (g.r1 ≤ row) && decide (row ≤ g.r2) &&
      decide (g.c1 ≤ col) && decide (col ≤ g.c2)) with
  | some g => ws.val (g.r1 - 1) (g.c1 - 1)
  | none => ws.val (row - 1) (col - 1)

/-- Modelled from the spec (section 4.1 GridBuilder), for comparison with
`build_grid_excluding_explicit`: mark `true` iff the value resolved through
the merge map is non-null AND the row is not hidden AND the column is not
hidden AND the 1-based cell `(r, c)` is in no explicit-table range. -/
def spec_grid_cell (ws : Worksheet) (regs : List Region) (r c : Nat) : Bool :=
  (get_merged_cell_value ws r c).isSome &&
  !ws.hiddenRow r && !ws.hiddenCol c &&
  !(regs.any (fun g => decide (g.r1 ≤ r) && decide (r ≤ g.r2) &&
      decide (g.c1 ≤ c) && decide (c ≤ g.c2)))

/-!
### Maximal-run scanning

Both splitting functions contain the same imperative scan over the indices of
the sub-grid: walk `j` over `range(n)`, remember in `start` where the current
run of occupied lines began, emit `(start, j - 1)` when an empty line closes a
run, and flush `(start, n - 1)` at the end.  `scanRunsGo` is the direct
translation (the list argument is the remaining iteration range, the
accumulator collects emitted runs in order).
-/

/-- One imperative run-collecting scan of the source (the `for j in range(...)`
loop with its `start` variable), iterating over the remaining index list. -/
def scanRunsGo (p : Nat → Bool) (n : Nat) :
    List Nat → Option Nat → List (Nat × Nat) → List (Nat × Nat)
  | [], some s, acc => acc ++ [(s, n - 1)]
  | [], none, acc => acc
  | j :: js, start, acc =>
    if p j then
      scanRunsGo p n js (some (start.getD j)) acc
    else
      match start with
      | none => scanRunsGo p n js none acc
      | some s => scanRunsGo p n js none (acc ++ [(s, j - 1)])

/-- The scan of the source applied to `range(n)` with `start = None` and an
empty output list. -/
def scanRuns (p : Nat → Bool) (n : Nat) : List (Nat × Nat) :=
  scanRunsGo p n (List.range n) none []

/-- Accumulator-free reformulation of the scan used for the proofs:
`runsFrom p n j start m` processes indices `j, j+1, ..., j+m-1`. -/
def runsFrom (p : Nat → Bool) (n : Nat) : Nat → Option Nat → Nat → List (Nat × Nat)
  | _, start, 0 =>
    (match start with
     | some s => [(s, n - 1)]
     | none => [])
  | j, start, m + 1 =>
    if p j then
      runsFrom p n (j + 1) (some (start.getD j)) m
    else
      match start with
      | none => runsFrom p n (j + 1) none m
      | some s => (s, j - 1) :: runsFrom p n (j + 1) none m

/-!
### The region splitter

`split_bbox_on_empty_lines` and `split_bbox_on_empty_rows` are mutually
recursive: the former splits on empty columns first (recursing into the
latter per column run) and otherwise emits row runs directly; the latter is
the mirror image.  Each recursive call strictly shrinks
`nRows b + nCols b`, so that measure is used as fuel: `splitStep g fuel dir b`
is the pair of source functions (`dir = true` for
`split_bbox_on_empty_lines`), structurally recursive on `fuel`, and the
wrappers pass the measure itself.  `splitStep_stable` below shows the result
does not depend on the fuel once it dominates the measure, and the derived
equations `split_bbox_on_empty_lines_eq` / `split_bbox_on_empty_rows_eq`
are exactly the recurrences of the source.
-/

/-- Height of the numpy sub-grid `grid[r1-1:r2, c1-1:c2]` of a box. -/
def nRows (b : Region) : Nat := b.r2 + 1 - b.r1

/-- Width of the numpy sub-grid of a box. -/
def nCols (b : Region) : Nat := b.c2 + 1 - b.c1

/-- `row_sums[i] > 0`: row `i` of the sub-grid has an occupied cell. -/
def rowOcc (g : Grid) (b : Region) (i : Nat) : Bool :=
  (List.range (nCols b)).any (fun j => g (b.r1 - 1 + i) (b.c1 - 1 + j))

/-- `col_sums[j] > 0`: column `j` of the sub-grid has an occupied cell. -/
def colOcc (g : Grid) (b : Region) (j : Nat) : Bool :=
  (List.range (nRows b)).any (fun i => g (b.r1 - 1 + i) (b.c1 - 1 + j))

/-- `empty_row_indices = [i for i, s in enumerate(row_sums) if s == 0]`. -/
def empty_row_indices (g : Grid) (b : Region) : List Nat :=
  (List.range (nRows b)).filter (fun i => !rowOcc g b i)

/-- `empty_col_indices = [j for j, s in enumerate(col_sums) if s == 0]`. -/
def empty_col_indices (g : Grid) (b : Region) : List Nat :=
  (List.range (nCols b)).filter (fun j => !colOcc g b j)

/-- The mutually recursive pair of splitting functions, fuelled.
`dir = true` is `split_bbox_on_empty_lines` (columns first, then rows
emitted directly); `dir = false` is `split_bbox_on_empty_rows` (rows first,
then columns emitted directly).  The run `(cs, ce)` over sub-grid columns
becomes the box `(r1, r2, c0 + cs + 1, c0 + ce + 1)` with `c0 = c1 - 1`, and
analogously for rows. -/
def splitStep (g : Grid) : Nat → Bool → Region → List Region
  | 0, _, b => [b]
  | fuel + 1, true, b =>
    if empty_col_indices g b ≠ [] then
      (scanRuns (colOcc g b) (nCols b)).flatMap (fun q =>
        splitStep g fuel false ⟨b.r1, b.c1 - 1 + q.1 + 1, b.r2, b.c1 - 1 + q.2 + 1⟩)
    else if empty_row_indices g b ≠ [] then
      (scanRuns (rowOcc g b) (nRows b)).map (fun q =>
        (⟨b.r1 - 1 + q.1 + 1, b.c1, b.r1 - 1 + q.2 + 1, b.c2⟩ : Region))
    else [b]
  | fuel + 1, false, b =>
    if empty_row_indices g b ≠ [] then
      (scanRuns (rowOcc g b) (nRows b)).flatMap (fun q =>
        splitStep g fuel true ⟨b.r1 - 1 + q.1 + 1, b.c1, b.r1 - 1 + q.2 + 1, b.c2⟩)
    else if empty_col_indices g b ≠ [] then
      (scanRuns (colOcc g b) (nCols b)).map (fun q =>
        (⟨b.r1, b.c1 - 1 + q.1 + 1, b.r2, b.c1 - 1 + q.2 + 1⟩ : Region))
    else [b]

/-- `split_bbox_on_empty_lines(grid, bbox)`. -/
def split_bbox_on_empty_lines (g : Grid) (b : Region) : List Region :=
  splitStep g (nRows b + nCols b) true b

/-- `split_bbox_on_empty_rows(grid, bbox)`. -/
def split_bbox_on_empty_rows (g : Grid) (b : Region) : List Region :=
  splitStep g (nRows b + nCols b) false b

/-- The 1-based cell `(r, c)` lies inside the box. -/
abbrev inRect (b : Region) (r c : Nat) : Prop :=
  b.r1 ≤ r ∧ r ≤ b.r2 ∧ b.c1 ≤ c ∧ c ≤ b.c2

/-- Two boxes share no cell. -/
abbrev regDisjoint (a b : Region) : Prop :=
  a.r2 < b.r1 ∨ b.r2 < a.r1 ∨ a.c2 < b.c1 ∨ b.c2 < a.c1

/-!
### Flood fill

`flood_fill_islands` walks the grid in row-major order and flood-fills each
unvisited occupied cell with an explicit stack of (possibly negative) int
coordinates, discarding out-of-bounds or already-visited or empty pops.
Each pop consumes one stack entry and entries are pushed (four at a time)
only when a cell is newly marked visited; at most `R * C` cells can ever be
marked and the initial stack holds one entry, so `4 * R * C + 1` pops always
drain the stack — that bound is used as fuel, keeping the definition
structurally recursive and executable.  The fuel-exhausted branch is
unreachable for that reason.
-/

/-- The stack loop of the source's inner `flood(r, c)`.  Python's
`stack.pop()` takes the last element of `stack.extend([(i+1,j), (i-1,j),
(i,j+1), (i,j-1)])`, so with the head of the Lean list as the top of the
stack the push order is reversed. -/
def floodGo (g : Grid) (R C : Nat) :
    Nat → List (Int × Int) → (Nat → Nat → Bool) → Nat → Nat → Nat → Nat →
    (Nat × Nat × Nat × Nat) × (Nat → Nat → Bool)
  | _, [], visited, min_r, max_r, min_c, max_c => ((min_r, max_r, min_c, max_c), visited)
  | 0, _ :: _, visited, min_r, max_r, min_c, max_c => ((min_r, max_r, min_c, max_c), visited)
  | fuel + 1, (i, j) :: stack, visited, min_r, max_r, min_c, max_c =>
    if i < 0 || (R : Int) ≤ i || j < 0 || (C : Int) ≤ j then
      floodGo g R C fuel stack visited min_r max_r min_c max_c
    else
      if visited i.toNat j.toNat || !g i.toNat j.toNat then
        floodGo g R C fuel stack visited min_r max_r min_c max_c
      else
        floodGo g R C fuel
          ((i, j - 1) :: (i, j + 1) :: (i - 1, j) :: (i + 1, j) :: stack)
          (fun x y => (decide (x = i.toNat) && decide (y = j.toNat)) || visited x y)
          (min min_r i.toNat) (max max_r i.toNat)
          (min min_c j.toNat) (max max_c j.toNat)

/-- `flood(r, c)`: stack seeded with the cell, bounds seeded with it too;
also returns the updated shared `visited` array. -/
def flood (g : Grid) (R C : Nat) (r c : Nat) (visited : Nat → Nat → Bool) :
    (Nat × Nat × Nat × Nat) × (Nat → Nat → Bool) :=
  floodGo g R C (4 * R * C + 1) [((r : Int), (c : Int))] visited r r c c

/-- The outer double loop of `flood_fill_islands` over the remaining
row-major cell list, threading `visited` and collecting retained islands. -/
def islandsGo (g : Grid) (R C min_rows min_cols : Nat) :
    List (Nat × Nat) → (Nat → Nat → Bool) → List Region → List Region
  | [], _, islands => islands
  | (i, j) :: cells, visited, islands =>
    if g i j && !visited i j then
      match flood g R C i j visited with
      | ((min_r, max_r, min_c, max_c), visited') =>
        islandsGo g R C min_rows min_cols cells visited'
          (if min_rows ≤ max_r - min_r + 1 && min_cols ≤ max_c - min_c + 1 then
            islands ++ [⟨min_r + 1, min_c + 1, max_r + 1, max_c + 1⟩]
          else islands)
    else islandsGo g R C min_rows min_cols cells visited islands

/-- `flood_fill_islands(grid, min_rows, min_cols)` over a grid of shape
`(R, C)`; islands are bounding boxes `(min_r + 1, max_r + 1, min_c + 1,
max_c + 1)` of the connected components of at least the minimum size. -/
def flood_fill_islands (g : Grid) (R C min_rows min_cols : Nat) : List Region :=
  islandsGo g R C min_rows min_cols
    ((List.range R).flatMap (fun i => (List.range C).map (fun j => (i, j))))
    (fun _ _ => false) []

/-!
### Header detection
-/

/-- The matrix read by `detect_header_and_body`: for `i in range(r1, r2+1)`,
`j in range(c1, c2+1)`, the merged-resolved value rendered by
`"" if v is None else str(v).strip()`. -/
def region_rows (ws : Worksheet) (r1 r2 c1 c2 : Nat) : List (List String) :=
  (List.range (r2 + 1 - r1)).map (fun i =>
    (List.range (c2 + 1 - c1)).map (fun k =>
      cellStr (get_merged_cell_value ws (r1 + i) (c1 + k))))

/-- The header condition of `detect_header_and_body` for a row and the row
after it: `text_count >= len(row)/2 and numericish_next >= len(next)/3`.
The Python comparisons are float comparisons of an integer against
`len/2` resp. `len/3`; both are exactly equivalent to the integer
comparisons `2*text_count >= len` resp. `3*numericish >= len` (halving is
exact in binary floating point, and a rounded third differs from the true
third by far less than the distance to the nearest integer unless the
division is exact). -/
def headerCond (row next_row : List String) : Bool :=
  decide (row.length ≤ 2 * row.countP (fun cell => (cell != "") && looks_text cell)) &&
  decide (next_row.length ≤
    3 * next_row.countP (fun cell => (cell != "") && !looks_text cell))

/-- The scanning loop `for idx in range(len(rows) - 1)` of
`detect_header_and_body`: the first index whose row satisfies `headerCond`
against its successor yields `(rows[idx], rows[idx+1:])`. -/
def findHeaderRow : List (List String) → Option (List String × List (List String))
  | [] => none
  | [_] => none
  | row :: next :: rest =>
    if headerCond row next then some (row, next :: rest)
    else findHeaderRow (next :: rest)

/-- `detect_header_and_body(ws, r1, r2, c1, c2)`; the fallback
`(rows[0], rows[1:])` is taken when no index satisfies the condition.
(On an empty matrix the Python would raise `IndexError`; regions always have
`r1 <= r2`, and the headD default is never consulted in that case.) -/
def detect_header_and_body (ws : Worksheet) (r1 r2 c1 c2 : Nat) :
    List String × List (List String) :=
  let rows := region_rows ws r1 r2 c1 c2
  match findHeaderRow rows with
  | some p => p
  | none => (rows.headD [], rows.drop 1)

/-!
### Header sanitising and the table report
-/

/-- The header filter used (twice) in `sanitize_table_headers_from_tableobj`:
keep `s` iff it is non-empty, does not start with a bracket, and has an
alphabetic character. -/
def headerFilterOk (s : String) : Bool :=
  !(s == "") && !(startsWithBr s ("[")) && s.data.any Char.isAlpha

/-- `sanitize_table_headers_from_tableobj`: prefer the declared
`tableColumns` names (skipping falsy names, then filtering the stripped
strings); if that yields nothing, read and filter the literal first row of
the range, skipping hidden columns. -/
def sanitize_table_headers_from_tableobj (ws : Worksheet) (table_obj : TableObj)
    (r1 c1 r2 c2 : Nat) : List String :=
  let headers :=
    if table_obj.tableColumns.isEmpty then []
    else
      table_obj.tableColumns.filterMap (fun name =>
        if name = "" then none
        else
          let s := pyStrip name
          if headerFilterOk s then some s else none)
  if headers ≠ [] then headers
  else
    (List.range (c2 + 1 - c1)).filterMap (fun k =>
      if ws.hiddenCol (c1 + k) then none
      else
        let s := cellStr (get_merged_cell_value ws r1 (c1 + k))
        if headerFilterOk s then some s else none)

/-- `f"{get_column_letter(c1)}{r1}..."` helper: standard bijective base-26
column letters; the recursion divides `(n-1)` by 26, so `n` itself bounds the
depth and serves as fuel. -/
def get_column_letterGo : Nat → Nat → String
  | 0, _ => ""
  | _, 0 => ""
  | fuel + 1, n =>
    get_column_letterGo fuel ((n - 1) / 26) ++
      String.singleton (Char.ofNat (65 + (n - 1) % 26))

/-- `get_column_letter` (openpyxl). -/
def get_column_letter (n : Nat) : String := get_column_letterGo n n

/-- `bbox_to_range_str(r1, r2, c1, c2)`. -/
def bbox_to_range_str (r1 r2 c1 c2 : Nat) : String :=
  get_column_letter c1 ++ toString r1 ++ ":" ++ get_column_letter c2 ++ toString r2

/-- One table entry of the report.  Explicit JSON entries carry
`name`, `table_name`, `range`, `headers` (plural) and the bounds; implicit
entries omit `name` and use the singular key `header` — both are modelled by
this one record (`name` is `""` for implicit entries, and the plural/singular
JSON key asymmetry is a serialisation detail). -/
structure TableEntry where
  name : String
  table_name : String
  rangeStr : String
  r1 : Nat
  c1 : Nat
  r2 : Nat
  c2 : Nat
  headers : List String
deriving DecidableEq, Repr

/-- The per-sheet part of the report of `generate_table_report`. -/
structure SheetTables where
  explicit_tables : List TableEntry
  implicit_tables : List TableEntry
deriving DecidableEq, Repr

/-- The explicit-tables loop of `generate_table_report`, threading the
running `table_counter` (which increments for every entry, named or not). -/
def build_explicit_entries (ws : Worksheet) :
    Nat → List (Region × String × TableObj) → List TableEntry
  | _, [] => []
  | table_counter, (reg, nm, t) :: rest =>
    { name := nm,
      table_name := if nm = "" then "Table " ++ toString table_counter else nm,
      rangeStr := bbox_to_range_str reg.r1 reg.r2 reg.c1 reg.c2,
      r1 := reg.r1, c1 := reg.c1, r2 := reg.r2, c2 := reg.c2,
      headers := sanitize_table_headers_from_tableobj ws t reg.r1 reg.c1 reg.r2 reg.c2 } ::
    build_explicit_entries ws (table_counter + 1) rest

/-- The implicit-tables loop of `generate_table_report`: header row from
`detect_header_and_body`, filtered by
`[h for h in header if h and not str(h).startswith("[")]`. -/
def build_implicit_entries (ws : Worksheet) : Nat → List Region → List TableEntry
  | _, [] => []
  | table_counter, b :: rest =>
    { name := "",
      table_name := "Table " ++ toString table_counter,
      rangeStr := bbox_to_range_str b.r1 b.r2 b.c1 b.c2,
      r1 := b.r1, c1 := b.c1, r2 := b.r2, c2 := b.c2,
      headers := ((detect_header_and_body ws b.r1 b.r2 b.c1 b.c2).1).filter
        (fun h => (h != "") && !(startsWithBr h ("["))) } ::
    build_implicit_entries ws (table_counter + 1) rest

/-- Lines 417-423 of the source: the implicit boxes of a sheet are the
islands of the exclusion grid, each refined by `split_bbox_on_empty_lines`
(the island parameters are the source defaults `min_rows = min_cols = 2`). -/
def implicit_boxes (ws : Worksheet) (regs : List Region) : List Region :=
  let grid := build_grid_excluding_explicit ws regs
  (flood_fill_islands grid ws.maxRow ws.maxCol 2 2).flatMap
    (fun box => split_bbox_on_empty_lines grid box)

/-- The per-sheet body of `generate_table_report` (JSON serialisation and
file output elided): explicit entries first (counter from 1), then implicit
entries (counter continuing after the explicit ones). -/
def generate_sheet_report (ws : Worksheet) : SheetTables :=
  let explicit := get_explicit_table_regions ws
  { explicit_tables := build_explicit_entries ws 1 explicit,
    implicit_tables :=
      build_implicit_entries ws (1 + explicit.length)
        (implicit_boxes ws (explicit.map (fun x => x.1))) }

/-- `generate_table_report`: the report maps each sheet name to its
per-sheet table report. -/
def generate_table_report (wb : List (String × Worksheet)) :
    List (String × SheetTables) :=
  wb.map (fun p => (p.1, generate_sheet_report p.2))

/-!
### Reference extraction and formula annotation

`extract_references` is `re.findall(r'(\$?[A-Za-z]{1,3}\$?\d+)', formula)`.
For this pattern, backtracking regex semantics collapse to a deterministic
scan: at a given position the pattern matches iff (after an optional `$`) the
maximal run of ASCII letters has length between 1 and 3 and is followed by an
optional `$` and at least one ASCII digit — if the letter run is longer than
3, every shorter greedy choice leaves a letter (neither `$` nor a digit) as
the next character, and a consumed `$` not followed by a digit fails both
with and without the optional `$`.  `re.findall` scans left to right,
resuming after each (non-empty) match, which consumes at least two
characters; a failed position advances by one.  The string length therefore
bounds the number of steps and serves as fuel.
-/

/-- `('$'-prefix, rest)` for an optional leading dollar. -/
def splitDollar : List Char → List Char × List Char
  | '$' :: rest => (['$'], rest)
  | l => ([], l)

/-- Match the reference pattern at the start of `l`; on success return the
matched characters and the remaining suffix. -/
def matchRefAt (l : List Char) : Option (List Char × List Char) :=
  let (d1, l1) := splitDollar l
  let letters := l1.takeWhile Char.isAlpha
  let l2 := l1.dropWhile Char.isAlpha
  if 1 ≤ letters.length && letters.length ≤ 3 then
    let (d2, l3) := splitDollar l2
    let digits := l3.takeWhile Char.isDigit
    let l4 := l3.dropWhile Char.isDigit
    if 1 ≤ digits.length then some (d1 ++ letters ++ d2 ++ digits, l4) else none
  else none

/-- The `re.findall` scan; the fuel starts at the string length (each step
consumes at least one character). -/
def scanRefsGo : Nat → List Char → List String
  | 0, _ => []
  | _, [] => []
  | fuel + 1, c :: rest =>
    match matchRefAt (c :: rest) with
    | some (m, rest2) => String.mk m :: scanRefsGo fuel rest2
    | none => scanRefsGo fuel rest

/-- `extract_references(formula)`. -/
def extract_references (formula : String) : List String :=
  scanRefsGo formula.data.length formula.data

/-- `list(dict.fromkeys(xs))`: iterate, appending each element not seen
before (Python dict keys preserve first-insertion order). -/
def dedup_first_seen (xs : List String) : List String :=
  xs.foldl (fun acc x => if acc.contains x then acc else acc ++ [x]) []

/-- `sorted(refs, key=len, reverse=True)`: a stable descending-by-length
sort, modelled as left-to-right insertion keeping earlier elements ahead of
later ones of the same length.  (The Python input is a `set`, whose iteration
order is unspecified; `annotate_formula` below therefore fixes first-seen
order, one admissible iteration order, before sorting.) -/
def insertLenDesc (x : String) : List String → List String
  | [] => [x]
  | y :: ys => if x.length ≤ y.length then y :: insertLenDesc x ys else x :: y :: ys

def sortLenDesc (xs : List String) : List String :=
  xs.foldl (fun acc x => insertLenDesc x acc) []

/-- `column_index_from_string` (openpyxl): bijective base-26 on the
upper-cased letters, `A = 1`. -/
def column_index_from_string (letters : List Char) : Nat :=
  letters.foldl (fun acc c => acc * 26 + (c.toUpper.toNat - 64)) 0

/-- Decimal digits to the row number. -/
def digitsToNat (ds : List Char) : Nat :=
  ds.foldl (fun acc c => acc * 10 + (c.toNat - 48)) 0

/-- `coordinate_from_string(cell_ref.replace('$', ''))` followed by
`column_index_from_string` / `int(row)`, returning `(col_idx, row_idx)` or
`none` when unparsable (the `except: return None` of
`find_header_for_cell`). -/
def parse_cell_ref (cell_ref : String) : Option (Nat × Nat) :=
  let t := cell_ref.data.filter (fun c => c ≠ '$')
  let letters := t.takeWhile Char.isAlpha
  let rest := t.dropWhile Char.isAlpha
  if letters ≠ [] && 1 ≤ letters.length && letters.length ≤ 3 &&
      rest ≠ [] && rest.all Char.isDigit then
    some (column_index_from_string letters, digitsToNat rest)
  else none

/-- The table metadata JSON (`table_info`): sheet name to per-sheet tables. -/
def TableInfo : Type := List (String × SheetTables)

/-- `table_info.get(sheet_name, {})`. -/
def lookupSheet (info : TableInfo) (sheet_name : String) : SheetTables :=
  match info.find? (fun p => p.1 = sheet_name) with
  | some p => p.2
  | none => ⟨[], []⟩

/-- One scan of `find_header_for_cell` over a table list: the first table
containing the cell AND having a header at ordinal `col - c1` returns that
header; a containing table whose header list is too short falls through to
the remaining tables. -/
def scanTablesForHeader (row col : Nat) : List TableEntry → Option String
  | [] => none
  | t :: ts =>
    if t.r1 ≤ row ∧ row ≤ t.r2 ∧ t.c1 ≤ col ∧ col ≤ t.c2 ∧
        col - t.c1 < t.headers.length then
      some (t.headers.getD (col - t.c1) (""))
    else scanTablesForHeader row col ts

/-- `find_header_for_cell(sheet_name, cell_ref, table_info)`: parse the
reference, then scan explicit tables first, then implicit tables. -/
def find_header_for_cell (sheet_name : String) (cell_ref : String)
    (table_info : TableInfo) : Option String :=
  match parse_cell_ref cell_ref with
  | none => none
  | some (col_idx, row_idx) =>
    let tabs := lookupSheet table_info sheet_name
    match scanTablesForHeader row_idx col_idx tabs.explicit_tables with
    | some h => some h
    | none => scanTablesForHeader row_idx col_idx tabs.implicit_tables

/-- `[A-Za-z0-9_]`, the character class of the boundary lookarounds. -/
def isWordChar (c : Char) : Bool := c.isAlphanum || c = '_'

/-- Whether the character after the matched reference (if any) fails the
lookahead `(?![A-Za-z0-9_])`. -/
def boundaryOkAfter (ref l : List Char) : Bool :=
  match l.drop ref.length with
  | [] => true
  | d :: _ => !isWordChar d

/-- `re.sub(r'(?<![A-Za-z0-9_])' + re.escape(ref) + r'(?![A-Za-z0-9_])',
repl, s)`: scan `s`; at each position where the previous character (none at
the start) is not a word character, the literal `ref` matches and the
following character is not a word character, emit `repl` and resume after
the match (the lookbehind then sees the last character of `ref`).  Fuel is
the string length; every step consumes at least one character (`ref` comes
from `extract_references` and is never empty; an empty `ref` is treated as
matching nowhere). -/
def subAnchoredGo (ref repl : List Char) : Nat → Bool → List Char → List Char
  | 0, _, l => l
  | _, _, [] => []
  | fuel + 1, prevOk, c :: rest =>
    if prevOk && !ref.isEmpty && ref.isPrefixOf (c :: rest) &&
        boundaryOkAfter ref (c :: rest) then
      repl ++ subAnchoredGo ref repl fuel
        (match ref.getLast? with
         | some d => !isWordChar d
         | none => true)
        ((c :: rest).drop ref.length)
    else c :: subAnchoredGo ref repl fuel (!isWordChar c) rest

/-- The boundary-anchored substitution of `annotate_formula`. -/
def subAnchored (ref repl s : String) : String :=
  String.mk (subAnchoredGo ref.data repl.data s.data.length true s.data)

/-- `annotate_formula(formula, sheet_name, table_info)`: deduplicate the
extracted references (the set), sort by length descending, then substitute
each resolvable header as `[header]` (an empty header string is falsy in
Python and performs no substitution). -/
def annotate_formula (formula sheet_name : String) (table_info : TableInfo) : String :=
  let refs := dedup_first_seen (extract_references formula)
  let refs_sorted := sortLenDesc refs
  refs_sorted.foldl (fun annotated ref =>
    match find_header_for_cell sheet_name ref table_info with
    | some header =>
      if header = "" then annotated
      else subAnchored ref ("[" ++ header ++ "]") annotated
    | none => annotated) formula

/-- Modelled from the spec (section 4.8 DependencyResolver): the
deduplicated sequence preserving first-occurrence order — each element
appears once, at the position of its first occurrence. -/
def first_occurrence_order : List String → List String
  | [] => []
  | x :: xs => x :: first_occurrence_order (xs.filter (fun y => y ≠ x))
termination_by l => l.length
decreasing_by
  simp only [List.length_cons]
  exact Nat.lt_succ_of_le (List.length_filter_le _ _)

/-!
### Concrete fixtures for counterexamples and witnesses
-/

/-- A 1x1 sheet whose only row is hidden but whose cell holds a value. -/
def wsHiddenRow : Worksheet :=
  { maxRow := 1, maxCol := 1, val := fun _ _ => some ("x"),
    hiddenRow := fun r => decide (r = 1), hiddenCol := fun _ => false,
    merged := [], tables := [] }

/-- A 1x2 sheet with `A1:B1` merged; the anchor holds a value, the covered
cell reads `None`. -/
def wsMergedPair : Worksheet :=
  { maxRow := 1, maxCol := 2,
    val := fun i j => if i = 0 ∧ j = 0 then some ("x") else none,
    hiddenRow := fun _ => false, hiddenCol := fun _ => false,
    merged := [⟨1, 1, 1, 2⟩], tables := [] }

/-- A 2x2 sheet holding only numeric-looking strings (no alphabetic
characters anywhere). -/
def wsNumeric : Worksheet :=
  { maxRow := 2, maxCol := 2,
    val := fun i j =>
      if i = 0 ∧ j = 0 then some ("123") else
      if i = 0 ∧ j = 1 then some ("456") else
      if i = 1 ∧ j = 0 then some ("7") else some ("8"),
    hiddenRow := fun _ => false, hiddenCol := fun _ => false,
    merged := [], tables := [] }

/-- A 2x2 sheet with an L-shaped block of values around a 1x1 explicit table
at `B2`. -/
def wsLShape : Worksheet :=
  { maxRow := 2, maxCol := 2,
    val := fun i j => if i = 1 ∧ j = 1 then some ("y") else some ("x"),
    hiddenRow := fun _ => false, hiddenCol := fun _ => false,
    merged := [],
    tables := [⟨⟨2, 2, 2, 2⟩, "T1", ["Hdr"]⟩] }

/-- A fully occupied 2x2 sheet with alphabetic first row. -/
def wsPlain : Worksheet :=
  { maxRow := 2, maxCol := 2,
    val := fun i j =>
      if i = 0 ∧ j = 0 then some ("Name") else
      if i = 0 ∧ j = 1 then some ("Amt") else
      if i = 1 ∧ j = 0 then some ("1") else some ("2"),
    hiddenRow := fun _ => false, hiddenCol := fun _ => false,
    merged := [], tables := [] }

/-- A 3x2 grid with occupied cells only at `(0,0)` and `(2,1)` (0-based):
row 1 is empty, no column is empty. -/
def gSparse : Grid := fun r c => decide ((r = 0 ∧ c = 0) ∨ (r = 2 ∧ c = 1))

/-- A fully occupied 2x2 grid. -/
def gFull : Grid := fun r c => decide (r < 2 ∧ c < 2)

/-- A table registry mapping `A1` to header `Qty` and `AA1` to `Total` on
sheet `S`. -/
def infoQtyTotal : TableInfo :=
  [("S", ⟨[⟨"T1", "T1", "A1:A1", 1, 1, 1, 1, ["Qty"]⟩,
           ⟨"T2", "T2", "AA1:AA1", 1, 27, 1, 27, ["Total"]⟩], []⟩)]

/-!
### Theorems
-/

theorem scanRunsGo_eq_runsFrom (p : Nat → Bool) (n : Nat) :
    ∀ (m j : Nat) (start : Option Nat) (acc : List (Nat × Nat)),
      scanRunsGo p n (List.range' j m) start acc = acc ++ runsFrom p n j start m := by
  intro m
  induction m with
  | zero =>
    intro j start acc
    cases start <;> simp [scanRunsGo, runsFrom, List.range']
  | succ m ih =>
    intro j start acc
    rw [List.range'_succ]
    by_cases hp : p j
    · simp only [scanRunsGo, runsFrom, hp, if_true]
      exact ih (j + 1) (some (start.getD j)) acc
    · cases start with
      | none =>
        simp only [scanRunsGo, runsFrom, hp, if_false]
        exact ih (j + 1) none acc
      | some s =>
        simp only [scanRunsGo, runsFrom, hp, if_false]
        rw [ih (j + 1) none (acc ++ [(s, j - 1)])]
        simp


theorem scanRuns_eq_runsFrom (p : Nat → Bool) (n : Nat) :
    scanRuns p n = runsFrom p n 0 none n := by
  have h := scanRunsGo_eq_runsFrom p n n 0 none []
  simpa [scanRuns, List.range_eq_range'] using h

/-- Soundness of the collected runs: each `(s, e)` is an in-range interval of
indices on which `p` holds, starting no earlier than the pending start (resp.
the current position, `start.getD j`). -/
theorem runsFrom_sound (p : Nat → Bool) (n : Nat) :
    ∀ (m j : Nat) (start : Option Nat), n = j + m →
      (∀ s, start = some s → s < j ∧ ∀ k, s ≤ k → k < j → p k = true) →
      ∀ q ∈ runsFrom p n j start m,
        start.getD j ≤ q.1 ∧ q.1 ≤ q.2 ∧ q.2 < n ∧
        ∀ k, q.1 ≤ k → k ≤ q.2 → p k = true := by
  intro m
  induction m with
  | zero =>
    intro j start hn hs q hq
    rcases start with _ | s
    · simp [runsFrom] at hq
    · simp only [runsFrom, List.mem_singleton] at hq
      obtain ⟨hsj, hall⟩ := hs s rfl
      subst hq
      simp only [Option.getD_some]
      refine ⟨Nat.le_refl s, by omega, by omega, ?_⟩
      intro k hk1 hk2
      exact hall k hk1 (by omega)
  | succ m ih =>
    intro j start hn hs q hq
    rcases start with _ | s
    · by_cases hp : p j = true
      · simp only [runsFrom, hp, if_true, Option.getD_none] at hq
        have hres := ih (j + 1) (some j) (by omega) ?_ q hq
        · simp only [Option.getD_some] at hres
          simpa [Option.getD_none] using ⟨hres.1, hres.2⟩
        · intro s hseq
          cases hseq
          refine ⟨by omega, ?_⟩
          intro k hk1 hk2
          have hkj : k = j := by omega
          rw [hkj]
          exact hp
      · simp only [runsFrom, Bool.not_eq_true] at hp
        simp only [runsFrom, hp, Bool.false_eq_true, if_false] at hq
        have hres := ih (j + 1) none (by omega) (by intro s hseq; cases hseq) q hq
        simp only [Option.getD_none] at hres ⊢
        exact ⟨by omega, hres.2⟩
    · obtain ⟨hsj, hall⟩ := hs s rfl
      by_cases hp : p j = true
      · simp only [runsFrom, hp, if_true, Option.getD_some] at hq
        have hres := ih (j + 1) (some s) (by omega) ?_ q hq
        · simpa [Option.getD_some] using hres
        · intro s' hseq
          cases hseq
          refine ⟨by omega, ?_⟩
          intro k hk1 hk2
          rcases Nat.lt_or_ge k j with h | h
          · exact hall k hk1 h
          · have hkj : k = j := by omega
            rw [hkj]
            exact hp
      · simp only [Bool.not_eq_true] at hp
        simp only [runsFrom, hp, Bool.false_eq_true, if_false, List.mem_cons] at hq
        rcases hq with hq | hq
        · subst hq
          simp only [Option.getD_some]
          refine ⟨Nat.le_refl s, by omega, by omega, ?_⟩
          intro k hk1 hk2
          exact hall k hk1 (by omega)
        · have hres := ih (j + 1) none (by omega) (by intro s' hseq; cases hseq) q hq
          simp only [Option.getD_none] at hres
          simp only [Option.getD_some]
          exact ⟨by omega, hres.2⟩

/-- The collected runs appear in strictly increasing, non-touching order. -/
theorem runsFrom_pairwise (p : Nat → Bool) (n : Nat) :
    ∀ (m j : Nat) (start : Option Nat), n = j + m →
      (∀ s, start = some s → s < j ∧ ∀ k, s ≤ k → k < j → p k = true) →
      List.Pairwise (fun a b : Nat × Nat => a.2 < b.1) (runsFrom p n j start m) := by
  intro m
  induction m with
  | zero =>
    intro j start hn hs
    rcases start with _ | s <;> simp [runsFrom]
  | succ m ih =>
    intro j start hn hs
    rcases start with _ | s
    · by_cases hp : p j = true
      · simp only [runsFrom, hp, if_true, Option.getD_none]
        refine ih (j + 1) (some j) (by omega) ?_
        intro s hseq
        cases hseq
        refine ⟨by omega, ?_⟩
        intro k hk1 hk2
        have hkj : k = j := by omega
        rw [hkj]; exact hp
      · simp only [Bool.not_eq_true] at hp
        simp only [runsFrom, hp, Bool.false_eq_true, if_false]
        exact ih (j + 1) none (by omega) (by intro s hseq; cases hseq)
    · obtain ⟨hsj, hall⟩ := hs s rfl
      by_cases hp : p j = true
      · simp only [runsFrom, hp, if_true, Option.getD_some]
        refine ih (j + 1) (some s) (by omega) ?_
        intro s' hseq
        cases hseq
        refine ⟨by omega, ?_⟩
        intro k hk1 hk2
        rcases Nat.lt_or_ge k j with h | h
        · exact hall k hk1 h
        · have hkj : k = j := by omega
          rw [hkj]; exact hp
      · simp only [Bool.not_eq_true] at hp
        simp only [runsFrom, hp, Bool.false_eq_true, if_false]
        refine List.Pairwise.cons ?_ (ih (j + 1) none (by omega) (by intro s' hseq; cases hseq))
        intro q hq
        have hres := runsFrom_sound p n m (j + 1) none (by omega)
          (by intro s' hseq; cases hseq) q hq
        simp only [Option.getD_none] at hres
        simp only []
        omega

/-- Coverage: every in-range index at which `p` holds and which lies in the
still-to-be-processed zone (or in the pending run) ends up inside some
collected run. -/
theorem runsFrom_cover (p : Nat → Bool) (n : Nat) :
    ∀ (m j : Nat) (start : Option Nat), n = j + m →
      (∀ s, start = some s → s < j ∧ ∀ k, s ≤ k → k < j → p k = true) →
      ∀ k, k < n → p k = true →
        (j ≤ k ∨ ∃ s, start = some s ∧ s ≤ k) →
        ∃ q ∈ runsFrom p n j start m, q.1 ≤ k ∧ k ≤ q.2 := by
  intro m
  induction m with
  | zero =>
    intro j start hn hs k hk hp hloc
    rcases start with _ | s
    · rcases hloc with h | ⟨s, hseq, _⟩
      · exact absurd hk (by omega)
      · cases hseq
    · refine ⟨(s, n - 1), by simp [runsFrom], ?_, by omega⟩
      rcases hloc with h | ⟨s', hseq, hsk⟩
      · obtain ⟨hsj, _⟩ := hs s rfl
        omega
      · cases hseq; exact hsk
  | succ m ih =>
    intro j start hn hs k hk hp hloc
    rcases start with _ | s
    · rcases hloc with hjk | ⟨s, hseq, _⟩
      · by_cases hpj : p j = true
        · simp only [runsFrom, hpj, if_true, Option.getD_none]
          refine ih (j + 1) (some j) (by omega) ?_ k hk hp ?_
          · intro s hseq
            cases hseq
            refine ⟨by omega, ?_⟩
            intro k' hk1 hk2
            have hkj : k' = j := by omega
            rw [hkj]; exact hpj
          · rcases Nat.eq_or_lt_of_le hjk with h | h
            · exact Or.inr ⟨j, rfl, by omega⟩
            · exact Or.inl (by omega)
        · simp only [Bool.not_eq_true] at hpj
          simp only [runsFrom, hpj, Bool.false_eq_true, if_false]
          refine ih (j + 1) none (by omega) (by intro s hseq; cases hseq) k hk hp (Or.inl ?_)
          have : k ≠ j := by
            intro h; rw [h] at hp; rw [hp] at hpj; cases hpj
          omega
      · cases hseq
    · obtain ⟨hsj, hall⟩ := hs s rfl
      by_cases hpj : p j = true
      · simp only [runsFrom, hpj, if_true, Option.getD_some]
        refine ih (j + 1) (some s) (by omega) ?_ k hk hp ?_
        · intro s' hseq
          cases hseq
          refine ⟨by omega, ?_⟩
          intro k' hk1 hk2
          rcases Nat.lt_or_ge k' j with h | h
          · exact hall k' hk1 h
          · have hkj : k' = j := by omega
            rw [hkj]; exact hpj
        · rcases hloc with hjk | ⟨s', hseq, hsk⟩
          · exact Or.inr ⟨s, rfl, by omega⟩
          · cases hseq; exact Or.inr ⟨s, rfl, hsk⟩
      · simp only [Bool.not_eq_true] at hpj
        simp only [runsFrom, hpj, Bool.false_eq_true, if_false]
        have hkj : k ≠ j := by
          intro h; rw [h] at hp; rw [hp] at hpj; cases hpj
        rcases hloc with hjk | ⟨s', hseq, hsk⟩
        · have h1 : j + 1 ≤ k := by omega
          obtain ⟨q, hq, hq1, hq2⟩ :=
            ih (j + 1) none (by omega) (by intro s' hseq; cases hseq) k hk hp (Or.inl h1)
          exact ⟨q, List.mem_cons_of_mem _ hq, hq1, hq2⟩
        · cases hseq
          rcases Nat.lt_or_ge k j with h | h
          · exact ⟨(s, j - 1), List.mem_cons_self _ _, hsk, by omega⟩
          · obtain ⟨q, hq, hq1, hq2⟩ :=
              ih (j + 1) none (by omega) (by intro s'' hseq2; cases hseq2) k hk hp
                (Or.inl (by omega))
            exact ⟨q, List.mem_cons_of_mem _ hq, hq1, hq2⟩

theorem scanRuns_sound (p : Nat → Bool) (n : Nat) :
    ∀ q ∈ scanRuns p n, q.1 ≤ q.2 ∧ q.2 < n ∧ ∀ k, q.1 ≤ k → k ≤ q.2 → p k = true := by
  intro q hq
  rw [scanRuns_eq_runsFrom] at hq
  have h := runsFrom_sound p n n 0 none (by omega) (by intro s hseq; cases hseq) q hq
  exact h.2

theorem scanRuns_pairwise (p : Nat → Bool) (n : Nat) :
    List.Pairwise (fun a b : Nat × Nat => a.2 < b.1) (scanRuns p n) := by
  rw [scanRuns_eq_runsFrom]
  exact runsFrom_pairwise p n n 0 none (by omega) (by intro s hseq; cases hseq)

theorem scanRuns_cover (p : Nat → Bool) (n : Nat) :
    ∀ k, k < n → p k = true → ∃ q ∈ scanRuns p n, q.1 ≤ k ∧ k ≤ q.2 := by
  intro k hk hp
  rw [scanRuns_eq_runsFrom]
  exact runsFrom_cover p n n 0 none (by omega) (by intro s hseq; cases hseq) k hk hp
    (Or.inl (Nat.zero_le k))

/-- When some index of `[0, n)` fails `p`, every collected run is strictly
shorter than `n`. -/
theorem scanRuns_size (p : Nat → Bool) (n : Nat)
    (hne : ∃ k, k < n ∧ p k = false) :
    ∀ q ∈ scanRuns p n, q.2 + 1 - q.1 < n := by
  intro q hq
  obtain ⟨k, hk, hpk⟩ := hne
  obtain ⟨h12, h2n, hall⟩ := scanRuns_sound p n q hq
  by_cases hin : q.1 ≤ k ∧ k ≤ q.2
  · have := hall k hin.1 hin.2
    rw [this] at hpk
    cases hpk
  · omega

theorem empty_col_indices_eq_nil (g : Grid) (b : Region) :
    empty_col_indices g b = [] ↔ ∀ j, j < nCols b → colOcc g b j = true := by
  simp [empty_col_indices, List.filter_eq_nil_iff]

theorem empty_row_indices_eq_nil (g : Grid) (b : Region) :
    empty_row_indices g b = [] ↔ ∀ i, i < nRows b → rowOcc g b i = true := by
  simp [empty_row_indices, List.filter_eq_nil_iff]

theorem empty_col_indices_ne_nil (g : Grid) (b : Region) :
    empty_col_indices g b ≠ [] ↔ ∃ j, j < nCols b ∧ colOcc g b j = false := by
  rw [Ne, empty_col_indices_eq_nil]
  push_neg
  constructor
  · rintro ⟨j, hj, hocc⟩
    exact ⟨j, hj, by simpa using hocc⟩
  · rintro ⟨j, hj, hocc⟩
    exact ⟨j, hj, by simp [hocc]⟩

theorem empty_row_indices_ne_nil (g : Grid) (b : Region) :
    empty_row_indices g b ≠ [] ↔ ∃ i, i < nRows b ∧ rowOcc g b i = false := by
  rw [Ne, empty_row_indices_eq_nil]
  push_neg
  constructor
  · rintro ⟨i, hi, hocc⟩
    exact ⟨i, hi, by simpa using hocc⟩
  · rintro ⟨i, hi, hocc⟩
    exact ⟨i, hi, by simp [hocc]⟩

/-- A row-run sub-box sees the rows of its parent, shifted by the run start. -/
theorem rowOcc_rowRun (g : Grid) (b : Region) (rs re0 : Nat) :
    ∀ i, rowOcc g ⟨b.r1 - 1 + rs + 1, b.c1, b.r1 - 1 + re0 + 1, b.c2⟩ i =
      rowOcc g b (rs + i) := by
  intro i
  simp only [rowOcc, nCols]
  have h : b.r1 - 1 + rs + 1 - 1 + i = b.r1 - 1 + (rs + i) := by omega
  have h2 : b.r1 - 1 + rs + i = b.r1 - 1 + (rs + i) := by omega
  simp [h, h2]

/-- A column-run sub-box sees the columns of its parent, shifted by the run
start. -/
theorem colOcc_colRun (g : Grid) (b : Region) (cs ce0 : Nat) :
    ∀ j, colOcc g ⟨b.r1, b.c1 - 1 + cs + 1, b.r2, b.c1 - 1 + ce0 + 1⟩ j =
      colOcc g b (cs + j) := by
  intro j
  simp only [colOcc, nRows]
  have h : b.c1 - 1 + cs + 1 - 1 + j = b.c1 - 1 + (cs + j) := by omega
  have h2 : b.c1 - 1 + cs + j = b.c1 - 1 + (cs + j) := by omega
  simp [h, h2]

theorem nRows_rowRun (b : Region) (rs re0 : Nat) :
    nRows ⟨b.r1 - 1 + rs + 1, b.c1, b.r1 - 1 + re0 + 1, b.c2⟩ = re0 + 1 - rs := by
  simp only [nRows]; omega

theorem nCols_colRun (b : Region) (cs ce0 : Nat) :
    nCols ⟨b.r1, b.c1 - 1 + cs + 1, b.r2, b.c1 - 1 + ce0 + 1⟩ = ce0 + 1 - cs := by
  simp only [nCols]; omega

/-- An occupied cell of a box witnesses occupancy of its row and column of
the sub-grid. -/
theorem occ_of_cell (g : Grid) (b : Region) (r c : Nat)
    (hr1 : 1 ≤ b.r1) (hc1 : 1 ≤ b.c1) (hin : inRect b r c)
    (hg : g (r - 1) (c - 1) = true) :
    (r - b.r1 < nRows b ∧ rowOcc g b (r - b.r1) = true) ∧
    (c - b.c1 < nCols b ∧ colOcc g b (c - b.c1) = true) := by
  obtain ⟨h1, h2, h3, h4⟩ := hin
  have hrow : b.r1 - 1 + (r - b.r1) = r - 1 := by omega
  have hcol : b.c1 - 1 + (c - b.c1) = c - 1 := by omega
  refine ⟨⟨by simp only [nRows]; omega, ?_⟩, ⟨by simp only [nCols]; omega, ?_⟩⟩
  · simp only [rowOcc, List.any_eq_true, List.mem_range]
    exact ⟨c - b.c1, by simp only [nCols]; omega, by rw [hrow, hcol]; exact hg⟩
  · simp only [colOcc, List.any_eq_true, List.mem_range]
    exact ⟨r - b.r1, by simp only [nRows]; omega, by rw [hrow, hcol]; exact hg⟩

/-- `Pairwise` for a `flatMap`, from pairwise inner lists and pairwise-disjoint
outer elements. -/
theorem pairwise_flatMap_of {α β : Type _} {R : β → β → Prop} {f : α → List β} :
    ∀ l : List α, (∀ a ∈ l, List.Pairwise R (f a)) →
      List.Pairwise (fun a a' => ∀ x ∈ f a, ∀ y ∈ f a', R x y) l →
      List.Pairwise R (l.flatMap f)
  | [], _, _ => by simp
  | a :: l, hin, hcross => by
    rw [List.flatMap_cons, List.pairwise_append]
    refine ⟨hin a (List.mem_cons_self a l), ?_, ?_⟩
    · exact pairwise_flatMap_of l (fun x hx => hin x (List.mem_cons_of_mem a hx))
        (List.Pairwise.sublist (List.sublist_cons_self a l) hcross)
    · intro x hx y hy
      rw [List.mem_flatMap] at hy
      obtain ⟨a', ha', hy⟩ := hy
      exact (List.rel_of_pairwise_cons hcross ha') x hx y hy

/-- Master induction for the fuelled splitter: with fuel dominating the
measure, the outputs are 1-based boxes contained in the input, pairwise
disjoint, jointly covering every occupied cell of the input, and each free of
empty lines along the axis of its final split. -/
theorem splitStep_master (g : Grid) :
    ∀ (fuel : Nat) (dir : Bool) (b : Region),
      nRows b + nCols b ≤ fuel → 1 ≤ b.r1 → 1 ≤ b.c1 →
      (∀ b' ∈ splitStep g fuel dir b,
        1 ≤ b'.r1 ∧ 1 ≤ b'.c1 ∧ b.r1 ≤ b'.r1 ∧ b'.r2 ≤ b.r2 ∧
        b.c1 ≤ b'.c1 ∧ b'.c2 ≤ b.c2) ∧
      List.Pairwise regDisjoint (splitStep g fuel dir b) ∧
      (∀ r c, inRect b r c → g (r - 1) (c - 1) = true →
        ∃ b' ∈ splitStep g fuel dir b, inRect b' r c) ∧
      (∀ b' ∈ splitStep g fuel dir b,
        empty_row_indices g b' = [] ∨ empty_col_indices g b' = []) := by
  intro fuel
  induction fuel with
  | zero =>
    intro dir b hm hr1 hc1
    have h0 : nRows b = 0 := by omega
    refine ⟨?_, ?_, ?_, ?_⟩
    · intro b' hb'
      simp only [splitStep, List.mem_singleton] at hb'
      subst hb'
      exact ⟨hr1, hc1, Nat.le_refl _, Nat.le_refl _, Nat.le_refl _, Nat.le_refl _⟩
    · simp [splitStep]
    · intro r c hin hg
      exact ⟨b, by simp [splitStep], hin⟩
    · intro b' hb'
      simp only [splitStep, List.mem_singleton] at hb'
      subst hb'
      left
      simp [empty_row_indices, h0]
  | succ fuel ih =>
    intro dir b hm hr1 hc1
    have hnr : nRows b = b.r2 + 1 - b.r1 := rfl
    have hnc : nCols b = b.c2 + 1 - b.c1 := rfl
    cases dir with
    | true =>
      by_cases hc : empty_col_indices g b ≠ []
      · -- column-splitting branch of split_bbox_on_empty_lines
        have hout : splitStep g (fuel + 1) true b =
            (scanRuns (colOcc g b) (nCols b)).flatMap (fun q =>
              splitStep g fuel false
                ⟨b.r1, b.c1 - 1 + q.1 + 1, b.r2, b.c1 - 1 + q.2 + 1⟩) := by
          simp only [splitStep, if_pos hc]
        obtain ⟨je, hje, hjocc⟩ := (empty_col_indices_ne_nil g b).mp hc
        have hsize : ∀ q ∈ scanRuns (colOcc g b) (nCols b), q.2 + 1 - q.1 < nCols b :=
          scanRuns_size _ _ ⟨je, hje, hjocc⟩
        have hsound := scanRuns_sound (colOcc g b) (nCols b)
        have hIH : ∀ q ∈ scanRuns (colOcc g b) (nCols b),
            (∀ b' ∈ splitStep g fuel false
                ⟨b.r1, b.c1 - 1 + q.1 + 1, b.r2, b.c1 - 1 + q.2 + 1⟩,
              1 ≤ b'.r1 ∧ 1 ≤ b'.c1 ∧ b.r1 ≤ b'.r1 ∧ b'.r2 ≤ b.r2 ∧
              b.c1 - 1 + q.1 + 1 ≤ b'.c1 ∧ b'.c2 ≤ b.c1 - 1 + q.2 + 1) ∧
            List.Pairwise regDisjoint (splitStep g fuel false
                ⟨b.r1, b.c1 - 1 + q.1 + 1, b.r2, b.c1 - 1 + q.2 + 1⟩) ∧
            (∀ r c, inRect ⟨b.r1, b.c1 - 1 + q.1 + 1, b.r2, b.c1 - 1 + q.2 + 1⟩ r c →
              g (r - 1) (c - 1) = true →
              ∃ b' ∈ splitStep g fuel false
                  ⟨b.r1, b.c1 - 1 + q.1 + 1, b.r2, b.c1 - 1 + q.2 + 1⟩, inRect b' r c) ∧
            (∀ b' ∈ splitStep g fuel false
                ⟨b.r1, b.c1 - 1 + q.1 + 1, b.r2, b.c1 - 1 + q.2 + 1⟩,
              empty_row_indices g b' = [] ∨ empty_col_indices g b' = []) := by
          intro q hq
          have hfuel : nRows ⟨b.r1, b.c1 - 1 + q.1 + 1, b.r2, b.c1 - 1 + q.2 + 1⟩ +
              nCols ⟨b.r1, b.c1 - 1 + q.1 + 1, b.r2, b.c1 - 1 + q.2 + 1⟩ ≤ fuel := by
            rw [nCols_colRun]
            have h1 := hsize q hq
            have h2 : nRows ⟨b.r1, b.c1 - 1 + q.1 + 1, b.r2, b.c1 - 1 + q.2 + 1⟩ =
                nRows b := rfl
            rw [h2]
            omega
          exact ih false _ hfuel hr1 (Nat.succ_le_succ (Nat.zero_le _))
        refine ⟨?_, ?_, ?_, ?_⟩
        · intro b' hb'
          rw [hout, List.mem_flatMap] at hb'
          obtain ⟨q, hq, hb'⟩ := hb'
          obtain ⟨hq12, hq2n, _⟩ := hsound q hq
          obtain ⟨p1, p2, p3, p4, p5, p6⟩ := (hIH q hq).1 b' hb'
          exact ⟨p1, p2, p3, p4, by omega, by omega⟩
        · rw [hout]
          refine pairwise_flatMap_of _ (fun q hq => (hIH q hq).2.1) ?_
          refine List.Pairwise.imp_of_mem ?_ (scanRuns_pairwise (colOcc g b) (nCols b))
          intro q q' hq hq' hlt x hx y hy
          obtain ⟨_, _, _, _, x5, x6⟩ := (hIH q hq).1 x hx
          obtain ⟨_, _, _, _, y5, y6⟩ := (hIH q' hq').1 y hy
          exact Or.inr (Or.inr (Or.inl (by omega)))
        · intro r c hin hg
          obtain ⟨hrow, hcol⟩ := occ_of_cell g b r c hr1 hc1 hin hg
          obtain ⟨q, hq, hk1, hk2⟩ :=
            scanRuns_cover (colOcc g b) (nCols b) (c - b.c1) hcol.1 hcol.2
          obtain ⟨hq12, hq2n, _⟩ := hsound q hq
          obtain ⟨h1, h2, h3, h4⟩ := hin
          have hi3 : b.c1 - 1 + q.1 + 1 ≤ c := by omega
          have hi4 : c ≤ b.c1 - 1 + q.2 + 1 := by omega
          have hin' : inRect ⟨b.r1, b.c1 - 1 + q.1 + 1, b.r2, b.c1 - 1 + q.2 + 1⟩ r c :=
            ⟨h1, h2, hi3, hi4⟩
          obtain ⟨b', hb', hbin⟩ := (hIH q hq).2.2.1 r c hin' hg
          exact ⟨b', by rw [hout, List.mem_flatMap]; exact ⟨q, hq, hb'⟩, hbin⟩
        · intro b' hb'
          rw [hout, List.mem_flatMap] at hb'
          obtain ⟨q, hq, hb'⟩ := hb'
          exact (hIH q hq).2.2.2 b' hb'
      · by_cases hr : empty_row_indices g b ≠ []
        · -- row-splitting branch of split_bbox_on_empty_lines (no recursion)
          have hout : splitStep g (fuel + 1) true b =
              (scanRuns (rowOcc g b) (nRows b)).map (fun q =>
                (⟨b.r1 - 1 + q.1 + 1, b.c1, b.r1 - 1 + q.2 + 1, b.c2⟩ : Region)) := by
            simp only [splitStep, if_neg hc, if_pos hr]
          have hsound := scanRuns_sound (rowOcc g b) (nRows b)
          refine ⟨?_, ?_, ?_, ?_⟩
          · intro b' hb'
            rw [hout, List.mem_map] at hb'
            obtain ⟨q, hq, hb'⟩ := hb'
            obtain ⟨hq12, hq2n, _⟩ := hsound q hq
            subst hb'
            dsimp only
            exact ⟨by omega, hc1, by omega, by omega, Nat.le_refl _, Nat.le_refl _⟩
          · rw [hout, List.pairwise_map]
            refine List.Pairwise.imp ?_ (scanRuns_pairwise (rowOcc g b) (nRows b))
            intro q q' hlt
            refine Or.inl ?_
            show b.r1 - 1 + q.2 + 1 < b.r1 - 1 + q'.1 + 1
            omega
          · intro r c hin hg
            obtain ⟨hrow, hcol⟩ := occ_of_cell g b r c hr1 hc1 hin hg
            obtain ⟨q, hq, hk1, hk2⟩ :=
              scanRuns_cover (rowOcc g b) (nRows b) (r - b.r1) hrow.1 hrow.2
            obtain ⟨hq12, hq2n, _⟩ := hsound q hq
            obtain ⟨h1, h2, h3, h4⟩ := hin
            have hs1 : b.r1 - 1 + q.1 + 1 ≤ r := by omega
            have hs2 : r ≤ b.r1 - 1 + q.2 + 1 := by omega
            exact ⟨⟨b.r1 - 1 + q.1 + 1, b.c1, b.r1 - 1 + q.2 + 1, b.c2⟩,
              by rw [hout, List.mem_map]; exact ⟨q, hq, rfl⟩, hs1, hs2, h3, h4⟩
          · intro b' hb'
            rw [hout, List.mem_map] at hb'
            obtain ⟨q, hq, hb'⟩ := hb'
            obtain ⟨hq12, hq2n, hall⟩ := hsound q hq
            subst hb'
            left
            rw [empty_row_indices_eq_nil]
            intro i hi
            rw [nRows_rowRun] at hi
            rw [rowOcc_rowRun]
            exact hall (q.1 + i) (by omega) (by omega)
        · -- base case: neither direction has an empty line
          have hout : splitStep g (fuel + 1) true b = [b] := by
            simp only [splitStep, if_neg hc, if_neg hr]
          rw [hout]
          rw [not_not] at hr
          refine ⟨?_, ?_, ?_, ?_⟩
          · intro b' hb'
            simp only [List.mem_singleton] at hb'
            subst hb'
            exact ⟨hr1, hc1, Nat.le_refl _, Nat.le_refl _, Nat.le_refl _, Nat.le_refl _⟩
          · simp
          · intro r c hin hg
            exact ⟨b, List.mem_singleton.mpr rfl, hin⟩
          · intro b' hb'
            simp only [List.mem_singleton] at hb'
            subst hb'
            exact Or.inl hr
    | false =>
      by_cases hr : empty_row_indices g b ≠ []
      · -- row-splitting branch of split_bbox_on_empty_rows
        have hout : splitStep g (fuel + 1) false b =
            (scanRuns (rowOcc g b) (nRows b)).flatMap (fun q =>
              splitStep g fuel true
                ⟨b.r1 - 1 + q.1 + 1, b.c1, b.r1 - 1 + q.2 + 1, b.c2⟩) := by
          simp only [splitStep, if_pos hr]
        obtain ⟨ie, hie, hiocc⟩ := (empty_row_indices_ne_nil g b).mp hr
        have hsize : ∀ q ∈ scanRuns (rowOcc g b) (nRows b), q.2 + 1 - q.1 < nRows b :=
          scanRuns_size _ _ ⟨ie, hie, hiocc⟩
        have hsound := scanRuns_sound (rowOcc g b) (nRows b)
        have hIH : ∀ q ∈ scanRuns (rowOcc g b) (nRows b),
            (∀ b' ∈ splitStep g fuel true
                ⟨b.r1 - 1 + q.1 + 1, b.c1, b.r1 - 1 + q.2 + 1, b.c2⟩,
              1 ≤ b'.r1 ∧ 1 ≤ b'.c1 ∧ b.r1 - 1 + q.1 + 1 ≤ b'.r1 ∧
              b'.r2 ≤ b.r1 - 1 + q.2 + 1 ∧ b.c1 ≤ b'.c1 ∧ b'.c2 ≤ b.c2) ∧
            List.Pairwise regDisjoint (splitStep g fuel true
                ⟨b.r1 - 1 + q.1 + 1, b.c1, b.r1 - 1 + q.2 + 1, b.c2⟩) ∧
            (∀ r c, inRect ⟨b.r1 - 1 + q.1 + 1, b.c1, b.r1 - 1 + q.2 + 1, b.c2⟩ r c →
              g (r - 1) (c - 1) = true →
              ∃ b' ∈ splitStep g fuel true
                  ⟨b.r1 - 1 + q.1 + 1, b.c1, b.r1 - 1 + q.2 + 1, b.c2⟩, inRect b' r c) ∧
            (∀ b' ∈ splitStep g fuel true
                ⟨b.r1 - 1 + q.1 + 1, b.c1, b.r1 - 1 + q.2 + 1, b.c2⟩,
              empty_row_indices g b' = [] ∨ empty_col_indices g b' = []) := by
          intro q hq
          have hfuel : nRows ⟨b.r1 - 1 + q.1 + 1, b.c1, b.r1 - 1 + q.2 + 1, b.c2⟩ +
              nCols ⟨b.r1 - 1 + q.1 + 1, b.c1, b.r1 - 1 + q.2 + 1, b.c2⟩ ≤ fuel := by
            rw [nRows_rowRun]
            have h1 := hsize q hq
            have h2 : nCols ⟨b.r1 - 1 + q.1 + 1, b.c1, b.r1 - 1 + q.2 + 1, b.c2⟩ =
                nCols b := rfl
            rw [h2]
            omega
          exact ih true _ hfuel (Nat.succ_le_succ (Nat.zero_le _)) hc1
        refine ⟨?_, ?_, ?_, ?_⟩
        · intro b' hb'
          rw [hout, List.mem_flatMap] at hb'
          obtain ⟨q, hq, hb'⟩ := hb'
          obtain ⟨hq12, hq2n, _⟩ := hsound q hq
          obtain ⟨p1, p2, p3, p4, p5, p6⟩ := (hIH q hq).1 b' hb'
          exact ⟨p1, p2, by omega, by omega, p5, p6⟩
        · rw [hout]
          refine pairwise_flatMap_of _ (fun q hq => (hIH q hq).2.1) ?_
          refine List.Pairwise.imp_of_mem ?_ (scanRuns_pairwise (rowOcc g b) (nRows b))
          intro q q' hq hq' hlt x hx y hy
          obtain ⟨_, _, x3, x4, _, _⟩ := (hIH q hq).1 x hx
          obtain ⟨_, _, y3, y4, _, _⟩ := (hIH q' hq').1 y hy
          exact Or.inl (by omega)
        · intro r c hin hg
          obtain ⟨hrow, hcol⟩ := occ_of_cell g b r c hr1 hc1 hin hg
          obtain ⟨q, hq, hk1, hk2⟩ :=
            scanRuns_cover (rowOcc g b) (nRows b) (r - b.r1) hrow.1 hrow.2
          obtain ⟨hq12, hq2n, _⟩ := hsound q hq
          obtain ⟨h1, h2, h3, h4⟩ := hin
          have hi1 : b.r1 - 1 + q.1 + 1 ≤ r := by omega
          have hi2 : r ≤ b.r1 - 1 + q.2 + 1 := by omega
          have hin' : inRect ⟨b.r1 - 1 + q.1 + 1, b.c1, b.r1 - 1 + q.2 + 1, b.c2⟩ r c :=
            ⟨hi1, hi2, h3, h4⟩
          obtain ⟨b', hb', hbin⟩ := (hIH q hq).2.2.1 r c hin' hg
          exact ⟨b', by rw [hout, List.mem_flatMap]; exact ⟨q, hq, hb'⟩, hbin⟩
        · intro b' hb'
          rw [hout, List.mem_flatMap] at hb'
          obtain ⟨q, hq, hb'⟩ := hb'
          exact (hIH q hq).2.2.2 b' hb'
      · by_cases hc : empty_col_indices g b ≠ []
        · -- column-splitting branch of split_bbox_on_empty_rows (no recursion)
          have hout : splitStep g (fuel + 1) false b =
              (scanRuns (colOcc g b) (nCols b)).map (fun q =>
                (⟨b.r1, b.c1 - 1 + q.1 + 1, b.r2, b.c1 - 1 + q.2 + 1⟩ : Region)) := by
            simp only [splitStep, if_neg hr, if_pos hc]
          have hsound := scanRuns_sound (colOcc g b) (nCols b)
          refine ⟨?_, ?_, ?_, ?_⟩
          · intro b' hb'
            rw [hout, List.mem_map] at hb'
            obtain ⟨q, hq, hb'⟩ := hb'
            obtain ⟨hq12, hq2n, _⟩ := hsound q hq
            subst hb'
            dsimp only
            exact ⟨hr1, by omega, Nat.le_refl _, Nat.le_refl _, by omega, by omega⟩
          · rw [hout, List.pairwise_map]
            refine List.Pairwise.imp ?_ (scanRuns_pairwise (colOcc g b) (nCols b))
            intro q q' hlt
            refine Or.inr (Or.inr (Or.inl ?_))
            show b.c1 - 1 + q.2 + 1 < b.c1 - 1 + q'.1 + 1
            omega
          · intro r c hin hg
            obtain ⟨hrow, hcol⟩ := occ_of_cell g b r c hr1 hc1 hin hg
            obtain ⟨q, hq, hk1, hk2⟩ :=
              scanRuns_cover (colOcc g b) (nCols b) (c - b.c1) hcol.1 hcol.2
            obtain ⟨hq12, hq2n, _⟩ := hsound q hq
            obtain ⟨h1, h2, h3, h4⟩ := hin
            have hs3 : b.c1 - 1 + q.1 + 1 ≤ c := by omega
            have hs4 : c ≤ b.c1 - 1 + q.2 + 1 := by omega
            exact ⟨⟨b.r1, b.c1 - 1 + q.1 + 1, b.r2, b.c1 - 1 + q.2 + 1⟩,
              by rw [hout, List.mem_map]; exact ⟨q, hq, rfl⟩, h1, h2, hs3, hs4⟩
          · intro b' hb'
            rw [hout, List.mem_map] at hb'
            obtain ⟨q, hq, hb'⟩ := hb'
            obtain ⟨hq12, hq2n, hall⟩ := hsound q hq
            subst hb'
            right
            rw [empty_col_indices_eq_nil]
            intro j hj
            rw [nCols_colRun] at hj
            rw [colOcc_colRun]
            exact hall (q.1 + j) (by omega) (by omega)
        · have hout : splitStep g (fuel + 1) false b = [b] := by
            simp only [splitStep, if_neg hr, if_neg hc]
          rw [hout]
          rw [not_not] at hr
          refine ⟨?_, ?_, ?_, ?_⟩
          · intro b' hb'
            simp only [List.mem_singleton] at hb'
            subst hb'
            exact ⟨hr1, hc1, Nat.le_refl _, Nat.le_refl _, Nat.le_refl _, Nat.le_refl _⟩
          · simp
          · intro r c hin hg
            exact ⟨b, List.mem_singleton.mpr rfl, hin⟩
          · intro b' hb'
            simp only [List.mem_singleton] at hb'
            subst hb'
            exact Or.inl hr

/-- With zero measure the sub-grid is empty, so any fuel returns the box. -/
theorem splitStep_of_measure_zero (g : Grid) (fuel : Nat) (dir : Bool) (b : Region)
    (h : nRows b + nCols b = 0) : splitStep g fuel dir b = [b] := by
  have hr0 : nRows b = 0 := by omega
  have hc0 : nCols b = 0 := by omega
  have hre : empty_row_indices g b = [] := by
    simp [empty_row_indices, hr0]
  have hce : empty_col_indices g b = [] := by
    simp [empty_col_indices, hc0]
  cases fuel with
  | zero => cases dir <;> simp [splitStep]
  | succ fuel =>
    cases dir <;> simp only [splitStep, hre, hce, ne_eq, not_true_eq_false, if_false]

/-- The fuelled splitter is insensitive to the fuel once it dominates the
measure, so the wrappers below compute the least fixed point of the source
recursion. -/
theorem splitStep_stable (g : Grid) :
    ∀ (fuel fuel' : Nat) (dir : Bool) (b : Region),
      nRows b + nCols b ≤ fuel → nRows b + nCols b ≤ fuel' →
      splitStep g fuel dir b = splitStep g fuel' dir b := by
  intro fuel
  induction fuel with
  | zero =>
    intro fuel' dir b hm hm'
    rw [splitStep_of_measure_zero g 0 dir b (by omega),
      splitStep_of_measure_zero g fuel' dir b (by omega)]
  | succ fuel ih =>
    intro fuel' dir b hm hm'
    cases fuel' with
    | zero =>
      rw [splitStep_of_measure_zero g (fuel + 1) dir b (by omega),
        splitStep_of_measure_zero g 0 dir b (by omega)]
    | succ fuel' =>
      have hnr : nRows b = b.r2 + 1 - b.r1 := rfl
      have hnc : nCols b = b.c2 + 1 - b.c1 := rfl
      cases dir with
      | true =>
        by_cases hc : empty_col_indices g b ≠ []
        · simp only [splitStep, if_pos hc]
          refine List.flatMap_congr ?_
          intro q hq
          obtain ⟨je, hje, hjocc⟩ := (empty_col_indices_ne_nil g b).mp hc
          have hsz := scanRuns_size _ _ ⟨je, hje, hjocc⟩ q hq
          have hm2 : nRows ⟨b.r1, b.c1 - 1 + q.1 + 1, b.r2, b.c1 - 1 + q.2 + 1⟩ +
              nCols ⟨b.r1, b.c1 - 1 + q.1 + 1, b.r2, b.c1 - 1 + q.2 + 1⟩ ≤ fuel := by
            rw [nCols_colRun]
            have : nRows ⟨b.r1, b.c1 - 1 + q.1 + 1, b.r2, b.c1 - 1 + q.2 + 1⟩ =
                nRows b := rfl
            rw [this]
            omega
          have hm2' : nRows ⟨b.r1, b.c1 - 1 + q.1 + 1, b.r2, b.c1 - 1 + q.2 + 1⟩ +
              nCols ⟨b.r1, b.c1 - 1 + q.1 + 1, b.r2, b.c1 - 1 + q.2 + 1⟩ ≤ fuel' := by
            rw [nCols_colRun]
            have : nRows ⟨b.r1, b.c1 - 1 + q.1 + 1, b.r2, b.c1 - 1 + q.2 + 1⟩ =
                nRows b := rfl
            rw [this]
            omega
          exact ih fuel' false _ hm2 hm2'
        · by_cases hrw : empty_row_indices g b ≠ [] <;>
            simp only [splitStep, if_neg hc, if_pos, if_neg, hrw, ite_true, ite_false,
              ne_eq, not_true_eq_false, not_false_eq_true, if_false, if_true]
      | false =>
        by_cases hrw : empty_row_indices g b ≠ []
        · simp only [splitStep, if_pos hrw]
          refine List.flatMap_congr ?_
          intro q hq
          obtain ⟨ie, hie, hiocc⟩ := (empty_row_indices_ne_nil g b).mp hrw
          have hsz := scanRuns_size _ _ ⟨ie, hie, hiocc⟩ q hq
          have hm2 : nRows ⟨b.r1 - 1 + q.1 + 1, b.c1, b.r1 - 1 + q.2 + 1, b.c2⟩ +
              nCols ⟨b.r1 - 1 + q.1 + 1, b.c1, b.r1 - 1 + q.2 + 1, b.c2⟩ ≤ fuel := by
            rw [nRows_rowRun]
            have : nCols ⟨b.r1 - 1 + q.1 + 1, b.c1, b.r1 - 1 + q.2 + 1, b.c2⟩ =
                nCols b := rfl
            rw [this]
            omega
          have hm2' : nRows ⟨b.r1 - 1 + q.1 + 1, b.c1, b.r1 - 1 + q.2 + 1, b.c2⟩ +
              nCols ⟨b.r1 - 1 + q.1 + 1, b.c1, b.r1 - 1 + q.2 + 1, b.c2⟩ ≤ fuel' := by
            rw [nRows_rowRun]
            have : nCols ⟨b.r1 - 1 + q.1 + 1, b.c1, b.r1 - 1 + q.2 + 1, b.c2⟩ =
                nCols b := rfl
            rw [this]
            omega
          exact ih fuel' true _ hm2 hm2'
        · by_cases hc : empty_col_indices g b ≠ [] <;>
            simp only [splitStep, if_neg hrw, if_pos, if_neg, hc, ite_true, ite_false,
              ne_eq, not_true_eq_false, not_false_eq_true, if_false, if_true]

/-- The source recurrence of `split_bbox_on_empty_lines`: split on empty
columns into column runs and recurse into `split_bbox_on_empty_rows`; else
split on empty rows into row runs (emitted directly); else return the box. -/
theorem split_bbox_on_empty_lines_eq (g : Grid) (b : Region) :
    split_bbox_on_empty_lines g b =
      if empty_col_indices g b ≠ [] then
        (scanRuns (colOcc g b) (nCols b)).flatMap (fun q =>
          split_bbox_on_empty_rows g ⟨b.r1, b.c1 - 1 + q.1 + 1, b.r2, b.c1 - 1 + q.2 + 1⟩)
      else if empty_row_indices g b ≠ [] then
        (scanRuns (rowOcc g b) (nRows b)).map (fun q =>
          (⟨b.r1 - 1 + q.1 + 1, b.c1, b.r1 - 1 + q.2 + 1, b.c2⟩ : Region))
      else [b] := by
  unfold split_bbox_on_empty_lines split_bbox_on_empty_rows
  rcases hm : nRows b + nCols b with _ | m
  · have hr0 : nRows b = 0 := by omega
    have hc0 : nCols b = 0 := by omega
    have hre : empty_row_indices g b = [] := by simp [empty_row_indices, hr0]
    have hce : empty_col_indices g b = [] := by simp [empty_col_indices, hc0]
    simp [splitStep, hre, hce]
  · simp only [splitStep, ne_eq]
    by_cases hc : empty_col_indices g b ≠ []
    · simp only [hc, not_false_eq_true, if_true, ne_eq, if_pos]
      refine List.flatMap_congr ?_
      intro q hq
      obtain ⟨je, hje, hjocc⟩ := (empty_col_indices_ne_nil g b).mp hc
      have hsz := scanRuns_size _ _ ⟨je, hje, hjocc⟩ q hq
      refine splitStep_stable g m _ false _ ?_ (Nat.le_refl _)
      rw [nCols_colRun]
      have : nRows ⟨b.r1, b.c1 - 1 + q.1 + 1, b.r2, b.c1 - 1 + q.2 + 1⟩ =
          nRows b := rfl
      rw [this]
      omega
    · rw [not_not] at hc
      simp [hc, splitStep]

/-- The source recurrence of `split_bbox_on_empty_rows` (mirror image). -/
theorem split_bbox_on_empty_rows_eq (g : Grid) (b : Region) :
    split_bbox_on_empty_rows g b =
      if empty_row_indices g b ≠ [] then
        (scanRuns (rowOcc g b) (nRows b)).flatMap (fun q =>
          split_bbox_on_empty_lines g ⟨b.r1 - 1 + q.1 + 1, b.c1, b.r1 - 1 + q.2 + 1, b.c2⟩)
      else if empty_col_indices g b ≠ [] then
        (scanRuns (colOcc g b) (nCols b)).map (fun q =>
          (⟨b.r1, b.c1 - 1 + q.1 + 1, b.r2, b.c1 - 1 + q.2 + 1⟩ : Region))
      else [b] := by
  unfold split_bbox_on_empty_lines split_bbox_on_empty_rows
  rcases hm : nRows b + nCols b with _ | m
  · have hr0 : nRows b = 0 := by omega
    have hc0 : nCols b = 0 := by omega
    have hre : empty_row_indices g b = [] := by simp [empty_row_indices, hr0]
    have hce : empty_col_indices g b = [] := by simp [empty_col_indices, hc0]
    simp [splitStep, hre, hce]
  · simp only [splitStep, ne_eq]
    by_cases hrw : empty_row_indices g b ≠ []
    · simp only [hrw, not_false_eq_true, if_true, ne_eq, if_pos]
      refine List.flatMap_congr ?_
      intro q hq
      obtain ⟨ie, hie, hiocc⟩ := (empty_row_indices_ne_nil g b).mp hrw
      have hsz := scanRuns_size _ _ ⟨ie, hie, hiocc⟩ q hq
      refine splitStep_stable g m _ true _ ?_ (Nat.le_refl _)
      rw [nRows_rowRun]
      have : nCols ⟨b.r1 - 1 + q.1 + 1, b.c1, b.r1 - 1 + q.2 + 1, b.c2⟩ =
          nCols b := rfl
      rw [this]
      omega
    · rw [not_not] at hrw
      simp [hrw, splitStep]

theorem islandsGo_one_based (g : Grid) (R C mr mc : Nat) :
    ∀ (cells : List (Nat × Nat)) (visited : Nat → Nat → Bool) (acc : List Region),
      (∀ b ∈ acc, 1 ≤ b.r1 ∧ 1 ≤ b.c1) →
      ∀ b ∈ islandsGo g R C mr mc cells visited acc, 1 ≤ b.r1 ∧ 1 ≤ b.c1 := by
  intro cells
  induction cells with
  | nil =>
    intro visited acc hacc b hb
    exact hacc b hb
  | cons cell cells ih =>
    intro visited acc hacc b hb
    obtain ⟨i, j⟩ := cell
    by_cases hgo : (g i j && !visited i j) = true
    · simp only [islandsGo, hgo, if_true] at hb
      rcases hflood : flood g R C i j visited with ⟨⟨min_r, max_r, min_c, max_c⟩, visited'⟩
      rw [hflood] at hb
      refine ih visited' _ ?_ b hb
      intro b' hb'
      by_cases hsz : (mr ≤ max_r - min_r + 1 && mc ≤ max_c - min_c + 1) = true
      · simp only [hsz, if_true, List.mem_append, List.mem_singleton] at hb'
        rcases hb' with hb' | hb'
        · exact hacc b' hb'
        · subst hb'
          exact ⟨Nat.succ_le_succ (Nat.zero_le _), Nat.succ_le_succ (Nat.zero_le _)⟩
      · simp only [Bool.not_eq_true] at hsz
        simp only [hsz, Bool.false_eq_true, if_false] at hb'
        exact hacc b' hb'
    · simp only [Bool.not_eq_true] at hgo
      simp only [islandsGo, hgo, Bool.false_eq_true, if_false] at hb
      exact ih visited acc hacc b hb

theorem flood_fill_islands_one_based (g : Grid) (R C mr mc : Nat) :
    ∀ b ∈ flood_fill_islands g R C mr mc, 1 ≤ b.r1 ∧ 1 ≤ b.c1 := by
  intro b hb
  exact islandsGo_one_based g R C mr mc _ _ [] (by intro b' hb'; cases hb') b hb

/-!
### Helper lemmas for the claims
-/

theorem explicit_mask_false_iff (regs : List Region) (i j : Nat) :
    explicit_mask regs i j = false ↔
      ∀ g ∈ regs, ¬(g.r1 ≤ i + 1 ∧ i + 1 ≤ g.r2 ∧ g.c1 ≤ j + 1 ∧ j + 1 ≤ g.c2) := by
  constructor
  · intro h g hg hcond
    have hx : explicit_mask regs i j = true := by
      simp only [explicit_mask, List.any_eq_true]
      refine ⟨g, hg, ?_⟩
      simp only [Bool.and_eq_true, decide_eq_true_eq]
      omega
    rw [h] at hx
    cases hx
  · intro h
    cases hmm : explicit_mask regs i j
    · rfl
    · exfalso
      simp only [explicit_mask, List.any_eq_true] at hmm
      obtain ⟨g, hg, hcond⟩ := hmm
      simp only [Bool.and_eq_true, decide_eq_true_eq] at hcond
      exact h g hg (by omega)

/-- Any cell of any region of the mask list gets a `false` grid entry
(regardless of its value): the common core of claims C2 and C8. -/
theorem grid_false_in_region (ws : Worksheet) (regs : List Region) (reg : Region)
    (hmem : reg ∈ regs) (h1 : 1 ≤ reg.r1) (h2 : 1 ≤ reg.c1) (r c : Nat)
    (hra : reg.r1 ≤ r) (hrb : r ≤ reg.r2) (hca : reg.c1 ≤ c) (hcb : c ≤ reg.c2) :
    build_grid_excluding_explicit ws regs (r - 1) (c - 1) = false := by
  have hmask : explicit_mask regs (r - 1) (c - 1) = true := by
    simp only [explicit_mask, List.any_eq_true]
    refine ⟨reg, hmem, ?_⟩
    simp only [Bool.and_eq_true, decide_eq_true_eq]
    omega
  simp [build_grid_excluding_explicit, hmask]

theorem headerFilterOk_spec (s : String) (h : headerFilterOk s = true) :
    ¬s = "" ∧ startsWithBr s ("[") = false ∧ s.data.any Char.isAlpha = true := by
  simp only [headerFilterOk, Bool.and_eq_true, Bool.not_eq_true', beq_eq_false_iff_ne,
    ne_eq] at h
  exact ⟨h.1.1, h.1.2, h.2⟩

/-- Both branches of `sanitize_table_headers_from_tableobj` emit only
strings passing the header filter. -/
theorem sanitize_headers_ok (ws : Worksheet) (table_obj : TableObj)
    (r1 c1 r2 c2 : Nat) :
    ∀ h ∈ sanitize_table_headers_from_tableobj ws table_obj r1 c1 r2 c2,
      ¬h = "" ∧ startsWithBr h ("[") = false ∧ h.data.any Char.isAlpha = true := by
  intro h hmem
  unfold sanitize_table_headers_from_tableobj at hmem
  by_cases hne : (if table_obj.tableColumns.isEmpty then []
      else
        table_obj.tableColumns.filterMap (fun name =>
          if name = "" then none
          else
            let s := pyStrip name
            if headerFilterOk s then some s else none)) ≠ []
  · rw [if_pos hne] at hmem
    by_cases hempty : table_obj.tableColumns.isEmpty
    · rw [if_pos hempty] at hmem
      cases hmem
    · rw [if_neg hempty] at hmem
      rw [List.mem_filterMap] at hmem
      obtain ⟨name, _, heq⟩ := hmem
      by_cases hname : name = ""
      · rw [if_pos hname] at heq
        cases heq
      · rw [if_neg hname] at heq
        simp only [] at heq
        by_cases hok : headerFilterOk (pyStrip name) = true
        · rw [if_pos hok] at heq
          cases heq
          exact headerFilterOk_spec _ hok
        · rw [if_neg hok] at heq
          cases heq
  · rw [if_neg hne] at hmem
    rw [List.mem_filterMap] at hmem
    obtain ⟨k, _, heq⟩ := hmem
    by_cases hhid : ws.hiddenCol (c1 + k) = true
    · rw [if_pos hhid] at heq
      cases heq
    · rw [if_neg hhid] at heq
      simp only [] at heq
      by_cases hok : headerFilterOk (cellStr (get_merged_cell_value ws r1 (c1 + k))) = true
      · rw [if_pos hok] at heq
        cases heq
        exact headerFilterOk_spec _ hok
      · rw [if_neg hok] at heq
        cases heq

/-- Every entry built by the explicit-tables loop carries the bounds of a
declared table and its sanitised headers. -/
theorem mem_build_explicit_entries (ws : Worksheet) :
    ∀ (k : Nat) (l : List (Region × String × TableObj)),
      ∀ e ∈ build_explicit_entries ws k l,
        ∃ x ∈ l, e.r1 = x.1.r1 ∧ e.c1 = x.1.c1 ∧ e.r2 = x.1.r2 ∧ e.c2 = x.1.c2 ∧
          e.headers =
            sanitize_table_headers_from_tableobj ws x.2.2 x.1.r1 x.1.c1 x.1.r2 x.1.c2 := by
  intro k l
  induction l generalizing k with
  | nil =>
    intro e he
    cases he
  | cons x rest ih =>
    intro e he
    obtain ⟨reg, nm, t⟩ := x
    simp only [build_explicit_entries, List.mem_cons] at he
    rcases he with he | he
    · subst he
      exact ⟨(reg, nm, t), List.mem_cons_self _ _, rfl, rfl, rfl, rfl, rfl⟩
    · obtain ⟨x, hx, hprops⟩ := ih (k + 1) e he
      exact ⟨x, List.mem_cons_of_mem _ hx, hprops⟩

/-- Every entry built by the implicit-tables loop carries the filtered
header row of some box. -/
theorem mem_build_implicit_entries (ws : Worksheet) :
    ∀ (k : Nat) (boxes : List Region),
      ∀ e ∈ build_implicit_entries ws k boxes,
        ∃ b ∈ boxes,
          e.headers = ((detect_header_and_body ws b.r1 b.r2 b.c1 b.c2).1).filter
            (fun h => (h != "") && !(startsWithBr h ("["))) := by
  intro k boxes
  induction boxes generalizing k with
  | nil =>
    intro e he
    cases he
  | cons b rest ih =>
    intro e he
    simp only [build_implicit_entries, List.mem_cons] at he
    rcases he with he | he
    · subst he
      exact ⟨b, List.mem_cons_self _ _, rfl⟩
    · obtain ⟨b', hb', hprops⟩ := ih (k + 1) e he
      exact ⟨b', List.mem_cons_of_mem _ hb', hprops⟩

/-- The generalised accumulator form of `dict.fromkeys` deduplication. -/
theorem dedup_first_seen_go (l : List String) :
    ∀ acc : List String,
      l.foldl (fun acc x => if acc.contains x then acc else acc ++ [x]) acc =
        acc ++ first_occurrence_order (l.filter (fun y => !acc.contains y)) := by
  induction l with
  | nil =>
    intro acc
    simp [first_occurrence_order]
  | cons x xs ih =>
    intro acc
    by_cases hx : acc.contains x = true
    · simp only [List.foldl_cons, hx, if_true]
      rw [ih acc]
      congr 2
      simp only [List.filter_cons, hx, Bool.not_true, Bool.false_eq_true, if_false]
    · simp only [List.foldl_cons, hx, Bool.false_eq_true, if_false]
      rw [ih (acc ++ [x])]
      have hpoint : ∀ y, (!(acc ++ [x]).contains y) = ((!acc.contains y) && decide (y ≠ x)) := by
        intro y
        by_cases hyx : y = x
        · subst hyx
          have h1 : (acc ++ [y]).contains y = true := List.elem_iff.mpr (by simp)
          simp [h1]
        · by_cases hya : y ∈ acc
          · have h1 : (acc ++ [x]).contains y = true := List.elem_iff.mpr (by simp [hya])
            have h2 : acc.contains y = true := List.elem_iff.mpr hya
            simp [h1, h2]
          · have h1 : (acc ++ [x]).contains y = false := by
              cases hc : (acc ++ [x]).contains y
              · rfl
              · exfalso
                have hm := List.elem_iff.mp hc
                simp only [List.mem_append, List.mem_singleton] at hm
                rcases hm with hm | hm
                · exact hya hm
                · exact hyx hm
            have h2 : acc.contains y = false := by
              cases hc : acc.contains y
              · rfl
              · exact absurd (List.elem_iff.mp hc) hya
            simp [h1, h2, hyx]
      have hfilter : xs.filter (fun y => !(acc ++ [x]).contains y) =
          (xs.filter (fun y => !acc.contains y)).filter (fun y => y ≠ x) := by
        rw [List.filter_filter]
        refine List.filter_congr ?_
        intro y _
        rw [hpoint y]
        rw [Bool.and_comm]
      rw [hfilter]
      have hxmem : x ∉ acc := fun hmem => hx (List.elem_iff.mpr hmem)
      have hcons : (x :: xs).filter (fun y => !acc.contains y) =
          x :: xs.filter (fun y => !acc.contains y) := by
        simp [List.filter_cons, hxmem]
      rw [hcons]
      rw [first_occurrence_order]
      simp

/-- Characterisation of the header-scanning loop: either some first index
satisfies the header condition against its successor (and the scan returns
that row and the rows after it), or no index does and the scan fails. -/
theorem findHeaderRow_spec :
    ∀ rows : List (List String),
      (∃ i, i + 1 < rows.length ∧
        headerCond (rows.getD i []) (rows.getD (i + 1) []) = true ∧
        (∀ i', i' < i → headerCond (rows.getD i' []) (rows.getD (i' + 1) []) = false) ∧
        findHeaderRow rows = some (rows.getD i [], rows.drop (i + 1))) ∨
      ((∀ i, i + 1 < rows.length → headerCond (rows.getD i []) (rows.getD (i + 1) []) = false) ∧
        findHeaderRow rows = none) := by
  intro rows
  induction rows with
  | nil =>
    right
    refine ⟨?_, rfl⟩
    intro i hi
    simp at hi
  | cons row tail ih =>
    cases tail with
    | nil =>
      right
      refine ⟨?_, rfl⟩
      intro i hi
      simp only [List.length_singleton] at hi
      omega
    | cons next rest =>
      by_cases hcond : headerCond row next = true
      · left
        refine ⟨0, by simp only [List.length_cons]; omega, ?_, ?_, ?_⟩
        · simpa using hcond
        · intro i' hi'
          omega
        · simp [findHeaderRow, hcond]
      · simp only [Bool.not_eq_true] at hcond
        have hstep : findHeaderRow (row :: next :: rest) = findHeaderRow (next :: rest) := by
          simp [findHeaderRow, hcond]
        rcases ih with ⟨i, hlen, hi, hmin, heq⟩ | ⟨hall, heq⟩
        · left
          refine ⟨i + 1, ?_, ?_, ?_, ?_⟩
          · simp only [List.length_cons] at hlen ⊢
            omega
          · simpa [List.getD_cons_succ] using hi
          · intro i' hi'
            cases i' with
            | zero => simpa using hcond
            | succ i'' =>
              have := hmin i'' (by omega)
              simpa [List.getD_cons_succ] using this
          · rw [hstep, heq]
            rfl
        · right
          refine ⟨?_, by rw [hstep, heq]⟩
          intro i hi
          cases i with
          | zero => simpa using hcond
          | succ i'' =>
            have hlen : i'' + 1 < (next :: rest).length := by
              simp only [List.length_cons] at hi ⊢
              omega
            have := hall i'' hlen
            simpa [List.getD_cons_succ] using this

/-!
### The claims
-/

/-- Claim C1, counterexample: the grid is NOT the cell-wise conjunction the
spec states.  The code never consults hidden rows and never resolves merges:
on `wsHiddenRow` the only cell has a value in a hidden row (code marks it,
spec says not); on `wsMergedPair` the covered half of a merged range reads
`None` raw but resolves to the anchor's value (code leaves it unmarked, spec
marks it). -/
theorem c1_counterexample :
    (¬∀ (ws : Worksheet) (regs : List Region) (i j : Nat),
      i < ws.maxRow → j < ws.maxCol →
      (build_grid_excluding_explicit ws regs i j = true ↔
        spec_grid_cell ws regs (i + 1) (j + 1) = true)) ∧
    (build_grid_excluding_explicit wsHiddenRow [] 0 0 = true ∧
      spec_grid_cell wsHiddenRow [] 1 1 = false) ∧
    (build_grid_excluding_explicit wsMergedPair [] 0 1 = false ∧
      spec_grid_cell wsMergedPair [] 1 2 = true) := by
  refine ⟨?_, by decide, by decide⟩
  intro h
  have h3 := (h wsHiddenRow [] 0 0 (by decide) (by decide)).mp (by decide)
  exact absurd h3 (by decide)

/-- Claim C1 as amended: within the used extent, the grid marks a cell true
iff its raw (merge-unresolved) value is non-null, its column is not hidden,
and the 1-based cell lies in no explicit-table range; hidden rows and merge
resolution play no role. -/
theorem c1_grid_characterization (ws : Worksheet) (regs : List Region) (i j : Nat)
    (hi : i < ws.maxRow) (hj : j < ws.maxCol) :
    build_grid_excluding_explicit ws regs i j = true ↔
      ((ws.val i j).isSome = true ∧ ws.hiddenCol (j + 1) = false ∧
        ∀ g ∈ regs, ¬(g.r1 ≤ i + 1 ∧ i + 1 ≤ g.r2 ∧ g.c1 ≤ j + 1 ∧ j + 1 ≤ g.c2)) := by
  constructor
  · intro htrue
    simp only [build_grid_excluding_explicit, Bool.and_eq_true, decide_eq_true_eq,
      Bool.not_eq_true'] at htrue
    obtain ⟨⟨⟨⟨hi', hj'⟩, hcol⟩, hval⟩, hmask⟩ := htrue
    exact ⟨hval, hcol, (explicit_mask_false_iff regs i j).mp hmask⟩
  · rintro ⟨hval, hcol, hmask⟩
    simp only [build_grid_excluding_explicit, Bool.and_eq_true, decide_eq_true_eq,
      Bool.not_eq_true']
    exact ⟨⟨⟨⟨hi, hj⟩, hcol⟩, hval⟩, (explicit_mask_false_iff regs i j).mpr hmask⟩

/-- Witness for the amended C1 at a concrete in-bounds cell. -/
theorem c1_grid_characterization_witness :
    0 < wsPlain.maxRow ∧ 0 < wsPlain.maxCol ∧
    (build_grid_excluding_explicit wsPlain [] 0 0 = true ↔
      ((wsPlain.val 0 0).isSome = true ∧ wsPlain.hiddenCol 1 = false ∧
        ∀ g ∈ ([] : List Region),
          ¬(g.r1 ≤ 1 ∧ 1 ≤ g.r2 ∧ g.c1 ≤ 1 ∧ 1 ≤ g.c2))) :=
  ⟨by decide, by decide, c1_grid_characterization wsPlain [] 0 0 (by decide) (by decide)⟩

/-- Claim C2 (confirmed): every cell of a declared explicit-table range gets
a `false` grid entry, whatever its literal value. -/
theorem c2_explicit_cell_grid_false (ws : Worksheet) (regs : List Region) (reg : Region)
    (hmem : reg ∈ regs) (h1 : 1 ≤ reg.r1) (h2 : 1 ≤ reg.c1) (r c : Nat)
    (hra : reg.r1 ≤ r) (hrb : r ≤ reg.r2) (hca : reg.c1 ≤ c) (hcb : c ≤ reg.c2) :
    build_grid_excluding_explicit ws regs (r - 1) (c - 1) = false :=
  grid_false_in_region ws regs reg hmem h1 h2 r c hra hrb hca hcb

/-- Witness for C2: the explicit `B2:B2` table of `wsLShape` blanks the grid
at `B2` even though the cell holds a value. -/
theorem c2_explicit_cell_grid_false_witness :
    (⟨2, 2, 2, 2⟩ : Region) ∈ wsLShape.tables.map (fun t => t.ref) ∧
    (wsLShape.val 1 1).isSome = true ∧
    build_grid_excluding_explicit wsLShape (wsLShape.tables.map (fun t => t.ref)) 1 1 = false :=
  ⟨by decide, by decide,
    c2_explicit_cell_grid_false wsLShape (wsLShape.tables.map (fun t => t.ref))
      ⟨2, 2, 2, 2⟩ (by decide) (by decide) (by decide) 2 2
      (by decide) (by decide) (by decide) (by decide)⟩

/-- Claim C5 (confirmed): `list(dict.fromkeys(...))` deduplication equals the
first-occurrence-order specification (so it is deterministic: it is a pure
function of its input), and in particular B2,A1,B2 collapses to B2,A1. -/
theorem c5_dependency_dedup :
    (∀ xs : List String, dedup_first_seen xs = first_occurrence_order xs) ∧
    dedup_first_seen ["B2", "A1", "B2"] = ["B2", "A1"] := by
  constructor
  · intro xs
    unfold dedup_first_seen
    rw [dedup_first_seen_go xs []]
    simp
  · decide

/-- Claim C7 (confirmed): a box whose sub-grid has no fully-empty row and no
fully-empty column is returned unchanged as a single-element list. -/
theorem c7_split_identity (g : Grid) (b : Region)
    (hrow : empty_row_indices g b = []) (hcol : empty_col_indices g b = []) :
    split_bbox_on_empty_lines g b = [b] := by
  rw [split_bbox_on_empty_lines_eq]
  simp [hrow, hcol]

/-- Witness for C7 on a fully occupied box. -/
theorem c7_split_identity_witness :
    empty_row_indices gFull ⟨1, 1, 2, 2⟩ = [] ∧
    empty_col_indices gFull ⟨1, 1, 2, 2⟩ = [] ∧
    split_bbox_on_empty_lines gFull ⟨1, 1, 2, 2⟩ = [⟨1, 1, 2, 2⟩] :=
  ⟨by decide, by decide, c7_split_identity gFull ⟨1, 1, 2, 2⟩ (by decide) (by decide)⟩

/-- Claim C4 (confirmed): whenever the registry resolves `AA1` to header
`Total` and `A1` to header `Qty`, annotating `=AA1+A1` yields
`=[Total]+[Qty]`: the length-descending substitution order and the
word-boundary anchoring keep `A1` from matching inside `AA1`. -/
theorem c4_annotation_non_corruption (sheet_name : String) (table_info : TableInfo)
    (hAA1 : find_header_for_cell sheet_name ("AA1") table_info = some ("Total"))
    (hA1 : find_header_for_cell sheet_name ("A1") table_info = some ("Qty")) :
    annotate_formula ("=AA1+A1") sheet_name table_info = ("=[Total]+[Qty]") := by
  have hrefs : sortLenDesc (dedup_first_seen (extract_references ("=AA1+A1"))) =
      ["AA1", "A1"] := by decide
  simp only [annotate_formula]
  rw [hrefs]
  simp only [List.foldl_cons, List.foldl_nil]
  rw [hAA1, hA1]
  decide

/-- Witness for C4 at a concrete registry with the two single-cell tables. -/
theorem c4_annotation_non_corruption_witness :
    find_header_for_cell ("S") ("AA1") infoQtyTotal = some ("Total") ∧
    find_header_for_cell ("S") ("A1") infoQtyTotal = some ("Qty") ∧
    annotate_formula ("=AA1+A1") ("S") infoQtyTotal = ("=[Total]+[Qty]") :=
  ⟨by decide, by decide,
    c4_annotation_non_corruption ("S") infoQtyTotal (by decide) (by decide)⟩

/-- Claim C6, counterexample: the splitter's row branch does not recurse, so
an output can retain a fully-empty column: on `gSparse` the box rows 1-3,
cols 1-2 splits on the empty middle row into two one-row boxes, and the
first output (row 1, cols 1-2) has its column 2 fully empty — refuting
"every output region is internally free of fully-empty rows and columns". -/
theorem c6_counterexample :
    (⟨1, 1, 1, 2⟩ : Region) ∈ split_bbox_on_empty_lines gSparse ⟨1, 1, 3, 2⟩ ∧
    empty_col_indices gSparse ⟨1, 1, 1, 2⟩ ≠ [] := by decide

/-- Claim C6 as amended: each output region is free of fully-empty lines
along at least one axis (no fully-empty row, or no fully-empty column), and
the outputs jointly cover every occupied cell of the input box. -/
theorem c6_split_coverage (g : Grid) (b : Region) (h1 : 1 ≤ b.r1) (h2 : 1 ≤ b.c1) :
    (∀ b' ∈ split_bbox_on_empty_lines g b,
      empty_row_indices g b' = [] ∨ empty_col_indices g b' = []) ∧
    (∀ r c, b.r1 ≤ r → r ≤ b.r2 → b.c1 ≤ c → c ≤ b.c2 → g (r - 1) (c - 1) = true →
      ∃ b' ∈ split_bbox_on_empty_lines g b,
        b'.r1 ≤ r ∧ r ≤ b'.r2 ∧ b'.c1 ≤ c ∧ c ≤ b'.c2) := by
  have h := splitStep_master g (nRows b + nCols b) true b (Nat.le_refl _) h1 h2
  refine ⟨h.2.2.2, ?_⟩
  intro r c ha hb hc hd hg
  exact h.2.2.1 r c ⟨ha, hb, hc, hd⟩ hg

/-- Witness for the amended C6 on the splitting example. -/
theorem c6_split_coverage_witness :
    1 ≤ (1 : Nat) ∧
    (∀ b' ∈ split_bbox_on_empty_lines gSparse ⟨1, 1, 3, 2⟩,
      empty_row_indices gSparse b' = [] ∨ empty_col_indices gSparse b' = []) ∧
    (∀ r c, 1 ≤ r → r ≤ 3 → 1 ≤ c → c ≤ 2 → gSparse (r - 1) (c - 1) = true →
      ∃ b' ∈ split_bbox_on_empty_lines gSparse ⟨1, 1, 3, 2⟩,
        b'.r1 ≤ r ∧ r ≤ b'.r2 ∧ b'.c1 ≤ c ∧ c ≤ b'.c2) :=
  ⟨by decide,
    (c6_split_coverage gSparse ⟨1, 1, 3, 2⟩ (by decide) (by decide)).1,
    (c6_split_coverage gSparse ⟨1, 1, 3, 2⟩ (by decide) (by decide)).2⟩

/-- Claim C10 (confirmed): every output of either splitting function stays
within the input box, and distinct outputs are pairwise disjoint. -/
theorem c10_split_containment_disjoint (g : Grid) (b : Region)
    (h1 : 1 ≤ b.r1) (h2 : 1 ≤ b.c1) :
    ((∀ b' ∈ split_bbox_on_empty_lines g b,
        b.r1 ≤ b'.r1 ∧ b'.r2 ≤ b.r2 ∧ b.c1 ≤ b'.c1 ∧ b'.c2 ≤ b.c2) ∧
      List.Pairwise regDisjoint (split_bbox_on_empty_lines g b)) ∧
    ((∀ b' ∈ split_bbox_on_empty_rows g b,
        b.r1 ≤ b'.r1 ∧ b'.r2 ≤ b.r2 ∧ b.c1 ≤ b'.c1 ∧ b'.c2 ≤ b.c2) ∧
      List.Pairwise regDisjoint (split_bbox_on_empty_rows g b)) := by
  have hT := splitStep_master g (nRows b + nCols b) true b (Nat.le_refl _) h1 h2
  have hF := splitStep_master g (nRows b + nCols b) false b (Nat.le_refl _) h1 h2
  refine ⟨⟨?_, hT.2.1⟩, ⟨?_, hF.2.1⟩⟩
  · intro b' hb'
    have h := hT.1 b' hb'
    exact ⟨h.2.2.1, h.2.2.2.1, h.2.2.2.2.1, h.2.2.2.2.2⟩
  · intro b' hb'
    have h := hF.1 b' hb'
    exact ⟨h.2.2.1, h.2.2.2.1, h.2.2.2.2.1, h.2.2.2.2.2⟩

/-- Witness for C10 on the splitting example. -/
theorem c10_split_containment_disjoint_witness :
    1 ≤ (1 : Nat) ∧
    ((∀ b' ∈ split_bbox_on_empty_lines gSparse ⟨1, 1, 3, 2⟩,
        1 ≤ b'.r1 ∧ b'.r2 ≤ 3 ∧ 1 ≤ b'.c1 ∧ b'.c2 ≤ 2) ∧
      List.Pairwise regDisjoint (split_bbox_on_empty_lines gSparse ⟨1, 1, 3, 2⟩)) ∧
    ((∀ b' ∈ split_bbox_on_empty_rows gSparse ⟨1, 1, 3, 2⟩,
        1 ≤ b'.r1 ∧ b'.r2 ≤ 3 ∧ 1 ≤ b'.c1 ∧ b'.c2 ≤ 2) ∧
      List.Pairwise regDisjoint (split_bbox_on_empty_rows gSparse ⟨1, 1, 3, 2⟩)) :=
  ⟨by decide,
    (c10_split_containment_disjoint gSparse ⟨1, 1, 3, 2⟩ (by decide) (by decide)).1,
    (c10_split_containment_disjoint gSparse ⟨1, 1, 3, 2⟩ (by decide) (by decide)).2⟩

/-- Claim C9 (confirmed): on a non-degenerate region, header detection
returns the row at the FIRST index satisfying "text-likes at least half the
row AND numeric-likes of the next row at least a third of it" (with the rows
after it as body), and falls back to the region's first row when no index
qualifies — it is a total function, so it never raises. -/
theorem c9_header_detection (ws : Worksheet) (r1 r2 c1 c2 : Nat) (h : r1 ≤ r2) :
    (∃ i, i + 1 < (region_rows ws r1 r2 c1 c2).length ∧
      headerCond ((region_rows ws r1 r2 c1 c2).getD i [])
        ((region_rows ws r1 r2 c1 c2).getD (i + 1) []) = true ∧
      (∀ i', i' < i →
        headerCond ((region_rows ws r1 r2 c1 c2).getD i' [])
          ((region_rows ws r1 r2 c1 c2).getD (i' + 1) []) = false) ∧
      detect_header_and_body ws r1 r2 c1 c2 =
        ((region_rows ws r1 r2 c1 c2).getD i [],
          (region_rows ws r1 r2 c1 c2).drop (i + 1))) ∨
    ((∀ i, i + 1 < (region_rows ws r1 r2 c1 c2).length →
        headerCond ((region_rows ws r1 r2 c1 c2).getD i [])
          ((region_rows ws r1 r2 c1 c2).getD (i + 1) []) = false) ∧
      detect_header_and_body ws r1 r2 c1 c2 =
        ((region_rows ws r1 r2 c1 c2).getD 0 [],
          (region_rows ws r1 r2 c1 c2).drop 1)) := by
  rcases findHeaderRow_spec (region_rows ws r1 r2 c1 c2) with
    ⟨i, hlen, hc, hmin, heq⟩ | ⟨hall, heq⟩
  · left
    exact ⟨i, hlen, hc, hmin, by simp [detect_header_and_body, heq]⟩
  · right
    refine ⟨hall, ?_⟩
    have hlen2 : (region_rows ws r1 r2 c1 c2).length = r2 + 1 - r1 := by
      simp [region_rows]
    have hne : region_rows ws r1 r2 c1 c2 ≠ [] := by
      intro hnil
      rw [hnil] at hlen2
      simp only [List.length_nil] at hlen2
      omega
    obtain ⟨a, tl, hrows⟩ := List.exists_cons_of_ne_nil hne
    simp only [detect_header_and_body, heq]
    rw [hrows]
    simp

/-- Witness for C9 on the numeric sheet (the fallback case). -/
theorem c9_header_detection_witness :
    1 ≤ 2 ∧
    ((∃ i, i + 1 < (region_rows wsNumeric 1 2 1 2).length ∧
      headerCond ((region_rows wsNumeric 1 2 1 2).getD i [])
        ((region_rows wsNumeric 1 2 1 2).getD (i + 1) []) = true ∧
      (∀ i', i' < i →
        headerCond ((region_rows wsNumeric 1 2 1 2).getD i' [])
          ((region_rows wsNumeric 1 2 1 2).getD (i' + 1) []) = false) ∧
      detect_header_and_body wsNumeric 1 2 1 2 =
        ((region_rows wsNumeric 1 2 1 2).getD i [],
          (region_rows wsNumeric 1 2 1 2).drop (i + 1))) ∨
    ((∀ i, i + 1 < (region_rows wsNumeric 1 2 1 2).length →
        headerCond ((region_rows wsNumeric 1 2 1 2).getD i [])
          ((region_rows wsNumeric 1 2 1 2).getD (i + 1) []) = false) ∧
      detect_header_and_body wsNumeric 1 2 1 2 =
        ((region_rows wsNumeric 1 2 1 2).getD 0 [],
          (region_rows wsNumeric 1 2 1 2).drop 1))) :=
  ⟨by decide, c9_header_detection wsNumeric 1 2 1 2 (by decide)⟩

/-- Claim C3, counterexample: implicit-table headers are filtered only for
blankness and a leading bracket, NOT for containing an alphabetic character:
the all-numeric sheet yields an implicit table whose stored headers include
`123`. -/
theorem c3_counterexample :
    ∃ e ∈ (generate_sheet_report wsNumeric).implicit_tables,
      ∃ h ∈ e.headers, h.data.any Char.isAlpha = false := by decide

/-- Claim C3 as amended: in every sheet of the table report, explicit-table
headers are never blank, bracket-prefixed, or devoid of alphabetic
characters; implicit-table headers are never blank or bracket-prefixed (but
may lack alphabetic characters). -/
theorem c3_header_filter (wb : List (String × Worksheet)) :
    ∀ p ∈ generate_table_report wb,
      (∀ e ∈ p.2.explicit_tables, ∀ h ∈ e.headers,
        ¬h = "" ∧ startsWithBr h ("[") = false ∧ h.data.any Char.isAlpha = true) ∧
      (∀ e ∈ p.2.implicit_tables, ∀ h ∈ e.headers,
        ¬h = "" ∧ startsWithBr h ("[") = false) := by
  intro p hp
  rw [generate_table_report, List.mem_map] at hp
  obtain ⟨q, hq, hpeq⟩ := hp
  subst hpeq
  constructor
  · intro e he hh hhm
    have he2 : e ∈ build_explicit_entries q.2 1 (get_explicit_table_regions q.2) := by
      simpa [generate_sheet_report] using he
    obtain ⟨x, hx, _, _, _, _, hhead⟩ := mem_build_explicit_entries q.2 1 _ e he2
    rw [hhead] at hhm
    exact sanitize_headers_ok q.2 x.2.2 x.1.r1 x.1.c1 x.1.r2 x.1.c2 hh hhm
  · intro e he hh hhm
    have he2 : e ∈ build_implicit_entries q.2 (1 + (get_explicit_table_regions q.2).length)
        (implicit_boxes q.2 ((get_explicit_table_regions q.2).map (fun x => x.1))) := by
      simpa [generate_sheet_report] using he
    obtain ⟨b, hb, hhead⟩ := mem_build_implicit_entries q.2 _ _ e he2
    rw [hhead] at hhm
    rw [List.mem_filter] at hhm
    obtain ⟨_, hcond⟩ := hhm
    simp only [Bool.and_eq_true, bne_iff_ne, ne_eq, Bool.not_eq_true'] at hcond
    exact ⟨hcond.1, hcond.2⟩

/-- Claim C8, counterexample: the bounding box of an implicit region CAN
overlap cells of an explicit table: on `wsLShape` the L-shaped values around
the 1x1 explicit table at `B2` produce the implicit box `A1:B2`, which
covers the explicit cell `B2`. -/
theorem c8_counterexample :
    ∃ e ∈ (generate_sheet_report wsLShape).implicit_tables,
      ∃ x ∈ (generate_sheet_report wsLShape).explicit_tables,
        (e.r1 ≤ 2 ∧ 2 ≤ e.r2 ∧ e.c1 ≤ 2 ∧ 2 ≤ e.c2) ∧
        (x.r1 ≤ 2 ∧ 2 ≤ x.r2 ∧ x.c1 ≤ 2 ∧ 2 ≤ x.c2) := by decide

/-- Claim C8 as amended: every cell of an explicit table of the report is
false in the exclusion grid (so implicit regions never claim an OCCUPIED
explicit cell — any overlap covers only grid-false cells), and the regions
obtained by splitting one island are pairwise disjoint.  Bounding boxes of
distinct islands, or of an implicit region and an explicit range, may still
overlap. -/
theorem c8_no_occupied_overlap (ws : Worksheet)
    (hwf : ∀ t ∈ ws.tables, 1 ≤ t.ref.r1 ∧ 1 ≤ t.ref.c1) :
    (∀ e ∈ (generate_sheet_report ws).explicit_tables, ∀ r c,
      e.r1 ≤ r → r ≤ e.r2 → e.c1 ≤ c → c ≤ e.c2 →
      build_grid_excluding_explicit ws
        ((get_explicit_table_regions ws).map (fun x => x.1)) (r - 1) (c - 1) = false) ∧
    (∀ box ∈ flood_fill_islands
        (build_grid_excluding_explicit ws
          ((get_explicit_table_regions ws).map (fun x => x.1))) ws.maxRow ws.maxCol 2 2,
      List.Pairwise regDisjoint
        (split_bbox_on_empty_lines
          (build_grid_excluding_explicit ws
            ((get_explicit_table_regions ws).map (fun x => x.1))) box)) := by
  constructor
  · intro e he r c hra hrb hca hcb
    have he2 : e ∈ build_explicit_entries ws 1 (get_explicit_table_regions ws) := by
      simpa [generate_sheet_report] using he
    obtain ⟨x, hx, e1, e2, e3, e4, _⟩ := mem_build_explicit_entries ws 1 _ e he2
    rw [get_explicit_table_regions, List.mem_map] at hx
    obtain ⟨t, ht, hxeq⟩ := hx
    have hx1 : x.1 = t.ref := by rw [← hxeq]
    obtain ⟨ht1, ht2⟩ := hwf t ht
    rw [e1, hx1] at hra
    rw [e3, hx1] at hrb
    rw [e2, hx1] at hca
    rw [e4, hx1] at hcb
    refine grid_false_in_region ws _ t.ref ?_ ht1 ht2 r c hra hrb hca hcb
    rw [List.mem_map]
    refine ⟨(t.ref, t.displayName, t), ?_, rfl⟩
    rw [get_explicit_table_regions, List.mem_map]
    exact ⟨t, ht, rfl⟩
  · intro box hbox
    have hb := flood_fill_islands_one_based _ _ _ _ _ box hbox
    have h := splitStep_master
      (build_grid_excluding_explicit ws ((get_explicit_table_regions ws).map (fun x => x.1)))
      (nRows box + nCols box) true box (Nat.le_refl _) hb.1 hb.2
    exact h.2.1

/-- Witness for the amended C8 on the L-shaped sheet. -/
theorem c8_no_occupied_overlap_witness :
    (∀ t ∈ wsLShape.tables, 1 ≤ t.ref.r1 ∧ 1 ≤ t.ref.c1) ∧
    (∀ e ∈ (generate_sheet_report wsLShape).explicit_tables, ∀ r c,
      e.r1 ≤ r → r ≤ e.r2 → e.c1 ≤ c → c ≤ e.c2 →
      build_grid_excluding_explicit wsLShape
        ((get_explicit_table_regions wsLShape).map (fun x => x.1)) (r - 1) (c - 1) = false) ∧
    (∀ box ∈ flood_fill_islands
        (build_grid_excluding_explicit wsLShape
          ((get_explicit_table_regions wsLShape).map (fun x => x.1)))
        wsLShape.maxRow wsLShape.maxCol 2 2,
      List.Pairwise regDisjoint
        (split_bbox_on_empty_lines
          (build_grid_excluding_explicit wsLShape
            ((get_explicit_table_regions wsLShape).map (fun x => x.1))) box)) :=
  ⟨by decide,
    (c8_no_occupied_overlap wsLShape (by decide)).1,
    (c8_no_occupied_overlap wsLShape (by decide)).2⟩


/-- Witness for the amended C3 on a one-sheet workbook. -/
theorem c3_header_filter_witness :
    ("Sheet1", generate_sheet_report wsPlain) ∈
      generate_table_report [("Sheet1", wsPlain)] ∧
    ((∀ e ∈ (generate_sheet_report wsPlain).explicit_tables, ∀ h ∈ e.headers,
        ¬h = "" ∧ startsWithBr h ("[") = false ∧ h.data.any Char.isAlpha = true) ∧
      (∀ e ∈ (generate_sheet_report wsPlain).implicit_tables, ∀ h ∈ e.headers,
        ¬h = "" ∧ startsWithBr h ("[") = false)) :=
  ⟨by decide,
    c3_header_filter [("Sheet1", wsPlain)] ("Sheet1", generate_sheet_report wsPlain)
      (by decide)⟩
